import Mathlib

/-!
Verification of the numeric kernels of `pygeoprocessing.geoprocessing_core`
(`geoprocessing_core.pyx`): the two-phase Euclidean distance transform
(`distance_transform_edt`), the finite-difference slope estimator
(`calculate_slope`), and the streaming statistics worker (`stats_worker`).

The Cython functions are shallowly embedded:
* machine integers (`cdef int`, `numpy.int32`) become `ℤ` — overflow claims
  are treated separately by bounding the values a 32-bit signed word holds;
* C `float`/`double` arithmetic is modelled by exact arithmetic:
  `ℚ` for the statistics worker (whose per-sample loop only adds, multiplies
  and divides) and `ℝ` where `sqrt` appears (slope, final distances);
* rasters are functions from pixel coordinates, and the per-column /
  per-row loops are structural recursions;
* the `s_array` / `t_array` stack of phase 2, indexed by `q_index`, is a
  `List (ℤ × ℤ)` of `(s, t)` pairs whose head is the entry at `q_index`.
-/

namespace PygeoCore

/-! ## Streaming statistics worker (`stats_worker`)

The worker consumes a queue of 1-D blocks and keeps the Welford state
`(n, M_local, S_local, min_value, max_value)`.  Blocks are modelled as
`List ℚ` and the queue contents as `List (List ℚ)`; the loops are folds.
-/

/-- The running state of `stats_worker`: `cdef long long n` and the four
`double` accumulators `M_local`, `S_local`, `min_value`, `max_value`. -/
structure StatsState where
  n : ℕ
  M_local : ℚ
  S_local : ℚ
  min_value : ℚ
  max_value : ℚ
  deriving DecidableEq, Repr

/-- Initial state of `stats_worker` (all accumulators zeroed, `n = 0`). -/
def statsInit : StatsState := ⟨0, 0, 0, 0, 0⟩

/-- One iteration of the per-sample loop of `stats_worker`:
`n = n + 1; if n == 1: M = x; S = 0; min = x; max = x
else: M_last = M; M = M + (x-M)/n; S = S + (x-M_last)*(x-M);
if x < min: min = x elif x > max: max = x`. -/
def updateSample (st : StatsState) (x : ℚ) : StatsState :=
  let n := st.n + 1
  if n = 1 then ⟨n, x, 0, x, x⟩
  else
    let M_last := st.M_local
    let M := st.M_local + (x - st.M_local) / (n : ℚ)
    let S := st.S_local + (x - M_last) * (x - M)
    let mn := if x < st.min_value then x else st.min_value
    let mx := if x < st.min_value then st.max_value
              else if st.max_value < x then x else st.max_value
    ⟨n, M, S, mn, mx⟩

/-- Processing one block: the inner `for i in range(n_elements)` loop. -/
def processBlock (st : StatsState) (block : List ℚ) : StatsState :=
  block.foldl updateSample st

/-- The `while True` loop of `stats_worker` over the queued blocks, up to
(but not including) the `None` sentinel. -/
def statsRun (blocks : List (List ℚ)) : StatsState :=
  blocks.foldl processBlock statsInit

/-- Processing a flat list of samples one at a time (the same loop body,
with block boundaries erased). -/
def processSamples (l : List ℚ) : StatsState :=
  l.foldl updateSample statsInit

/-- The computable part of the final answer of `stats_worker`:
`(min_value, max_value, M_local, S_local / n)` if `n > 0`, else `None`.
The emitted standard deviation is the square root of the last component,
applied in `stats_worker_result`. -/
def statsResultCore (blocks : List (List ℚ)) : Option (ℚ × ℚ × ℚ × ℚ) :=
  let st := statsRun blocks
  if 0 < st.n then
    some (st.min_value, st.max_value, st.M_local, st.S_local / (st.n : ℚ))
  else none

/-- The value `stats_worker` puts back on the queue at end-of-stream:
`(min_value, max_value, M_local, (S_local / n) ** 0.5)` when at least one
sample was consumed, `None` otherwise. -/
noncomputable def stats_worker_result (blocks : List (List ℚ)) :
    Option (ℚ × ℚ × ℚ × ℝ) :=
  (statsResultCore blocks).map fun r => (r.1, r.2.1, r.2.2.1, Real.sqrt (r.2.2.2 : ℝ))

/-- Reference batch minimum of a sample list (`0` on the empty list, which
the theorems never use). -/
def batchMin : List ℚ → ℚ
  | [] => 0
  | x :: xs => xs.foldl min x

/-- Reference batch maximum of a sample list. -/
def batchMax : List ℚ → ℚ
  | [] => 0
  | x :: xs => xs.foldl max x

/-- Reference population variance of a sample list:
`(Σ (x - mean)²) / length`. -/
def popVariance (l : List ℚ) : ℚ :=
  (l.map (fun y => (y - l.sum / (l.length : ℚ)) ^ 2)).sum / (l.length : ℚ)

/-- The invariant claimed for the running state: once a sample has been
consumed, `min_value ≤ M_local ≤ max_value` and `S_local ≥ 0`. -/
def statsInv (st : StatsState) : Prop :=
  1 ≤ st.n → st.min_value ≤ st.M_local ∧ st.M_local ≤ st.max_value ∧ 0 ≤ st.S_local

/-! ### Lemmas about the statistics worker -/

theorem updateSample_of_ne_zero (st : StatsState) (x : ℚ) (h : st.n ≠ 0) :
    updateSample st x =
      ⟨st.n + 1,
       st.M_local + (x - st.M_local) / ((st.n + 1 : ℕ) : ℚ),
       st.S_local + (x - st.M_local)
         * (x - (st.M_local + (x - st.M_local) / ((st.n + 1 : ℕ) : ℚ))),
       if x < st.min_value then x else st.min_value,
       if x < st.min_value then st.max_value
       else if st.max_value < x then x else st.max_value⟩ := by
  unfold updateSample
  rw [if_neg (by omega)]

theorem updateSample_of_zero (st : StatsState) (x : ℚ) (h : st.n = 0) :
    updateSample st x = ⟨1, x, 0, x, x⟩ := by
  unfold updateSample
  rw [if_pos (by omega)]
  simp [h]

theorem statsRun_eq_processSamples (blocks : List (List ℚ)) :
    statsRun blocks = processSamples blocks.flatten := by
  unfold statsRun processSamples
  rw [List.foldl_flatten]
  rfl

theorem processSamples_append (l : List ℚ) (x : ℚ) :
    processSamples (l ++ [x]) = updateSample (processSamples l) x := by
  unfold processSamples
  rw [List.foldl_append]
  rfl

theorem foldl_min_le_init (l : List ℚ) (a : ℚ) : l.foldl min a ≤ a := by
  induction l generalizing a with
  | nil => simp
  | cons z zs ih =>
    calc (z :: zs).foldl min a = zs.foldl min (min a z) := by simp
    _ ≤ min a z := ih _
    _ ≤ a := min_le_left _ _

theorem init_le_foldl_max (l : List ℚ) (a : ℚ) : a ≤ l.foldl max a := by
  induction l generalizing a with
  | nil => simp
  | cons z zs ih =>
    calc a ≤ max a z := le_max_left _ _
    _ ≤ zs.foldl max (max a z) := ih _
    _ = (z :: zs).foldl max a := by simp

theorem batchMin_append (l : List ℚ) (x : ℚ) (hl : l ≠ []) :
    batchMin (l ++ [x]) = min (batchMin l) x := by
  rcases l with _ | ⟨y, ys⟩
  · exact absurd rfl hl
  · simp [batchMin, List.foldl_append]

theorem batchMax_append (l : List ℚ) (x : ℚ) (hl : l ≠ []) :
    batchMax (l ++ [x]) = max (batchMax l) x := by
  rcases l with _ | ⟨y, ys⟩
  · exact absurd rfl hl
  · simp [batchMax, List.foldl_append]

theorem batchMin_le_batchMax (l : List ℚ) (hl : l ≠ []) :
    batchMin l ≤ batchMax l := by
  rcases l with _ | ⟨y, ys⟩
  · exact absurd rfl hl
  · exact le_trans (foldl_min_le_init ys y) (init_le_foldl_max ys y)

/-- Main characterization of the Welford state after a nonempty sample list:
count, mean, sum-of-squared-deviations (in the algebraically equivalent form
`Σx² - (Σx)²/n`), minimum and maximum are the exact batch quantities. -/
theorem processSamples_spec (l : List ℚ) (hne : l ≠ []) :
    (processSamples l).n = l.length ∧
    (processSamples l).M_local = l.sum / (l.length : ℚ) ∧
    (processSamples l).S_local
      = (l.map (fun y => y ^ 2)).sum - l.sum ^ 2 / (l.length : ℚ) ∧
    (processSamples l).min_value = batchMin l ∧
    (processSamples l).max_value = batchMax l := by
  induction l using List.reverseRecOn with
  | nil => exact absurd rfl hne
  | append_singleton l x ih =>
    rcases eq_or_ne l [] with rfl | hl
    · simp only [List.nil_append]
      unfold processSamples
      simp only [List.foldl_cons, List.foldl_nil]
      rw [updateSample_of_zero statsInit x rfl]
      norm_num [batchMin, batchMax]
    · obtain ⟨hn, hM, hS, hmin, hmax⟩ := ih hl
      have hlen0 : l.length ≠ 0 := fun h => hl (List.length_eq_zero.mp h)
      have hlen : (l.length : ℚ) ≠ 0 := by exact_mod_cast hlen0
      have hlen1 : ((l.length : ℚ) + 1) ≠ 0 := by positivity
      rw [processSamples_append, updateSample_of_ne_zero _ _ (by omega)]
      refine ⟨by simp [hn], ?_, ?_, ?_, ?_⟩
      · simp only [hM, hn, List.sum_append, List.length_append, List.sum_cons,
          List.sum_nil, List.length_cons, List.length_nil]
        push_cast
        field_simp
        ring
      · simp only [hM, hS, hn, List.map_append, List.sum_append,
          List.length_append, List.sum_cons, List.sum_nil, List.map_cons,
          List.map_nil, List.length_cons, List.length_nil]
        push_cast
        field_simp
        ring
      · simp only [hmin, batchMin_append l x hl]
        rcases lt_or_le x (batchMin l) with h | h
        · rw [if_pos h, min_eq_right h.le]
        · rw [if_neg (not_lt.mpr h), min_eq_left h]
      · simp only [hmin, hmax, batchMax_append l x hl]
        rcases lt_or_le x (batchMin l) with h | h
        · rw [if_pos h, max_eq_left ((h.le.trans (batchMin_le_batchMax l hl)))]
        · rw [if_neg (not_lt.mpr h)]
          rcases lt_or_le (batchMax l) x with h2 | h2
          · rw [if_pos h2, max_eq_right h2.le]
          · rw [if_neg (not_lt.mpr h2), max_eq_left h2]

theorem processSamples_length (l : List ℚ) : (processSamples l).n = l.length := by
  rcases eq_or_ne l [] with rfl | hl
  · rfl
  · exact (processSamples_spec l hl).1

/-- Expansion: `Σ (y - c)²` over a list equals `Σy² - 2·c·Σy + n·c²`. -/
theorem sum_sq_sub_expand (l : List ℚ) (c : ℚ) :
    (l.map (fun y => (y - c) ^ 2)).sum
      = (l.map (fun y => y ^ 2)).sum - 2 * c * l.sum + (l.length : ℚ) * c ^ 2 := by
  induction l with
  | nil => simp
  | cons z zs ih =>
    simp only [List.map_cons, List.sum_cons, List.length_cons, ih]
    push_cast
    ring

/-- The Welford `S/n` equals the population variance. -/
theorem S_div_n_eq_popVariance (l : List ℚ) (hne : l ≠ []) :
    (processSamples l).S_local / ((processSamples l).n : ℚ) = popVariance l := by
  obtain ⟨hn, -, hS, -, -⟩ := processSamples_spec l hne
  have hlen0 : l.length ≠ 0 := fun h => hne (List.length_eq_zero.mp h)
  have hlen : (l.length : ℚ) ≠ 0 := by exact_mod_cast hlen0
  rw [hn, hS, popVariance, sum_sq_sub_expand]
  field_simp
  ring

/-- The per-sample update keeps `min_value ≤ M_local ≤ max_value` and
`0 ≤ S_local` once `n ≥ 1`. -/
theorem updateSample_preserves_inv (st : StatsState) (x : ℚ)
    (h : statsInv st) : statsInv (updateSample st x) := by
  rcases eq_or_ne st.n 0 with h0 | h0
  · rw [updateSample_of_zero st x h0]
    intro _
    exact ⟨le_refl x, le_refl x, le_refl (0 : ℚ)⟩
  · obtain ⟨hmn, hmx, hS⟩ := h (by omega)
    rw [updateSample_of_ne_zero st x h0]
    intro _
    dsimp only
    set N : ℚ := ((st.n + 1 : ℕ) : ℚ) with hN
    have hN1 : (1 : ℚ) ≤ N := by
      rw [hN]; exact_mod_cast Nat.succ_le_succ (Nat.zero_le st.n)
    have hN0 : (0 : ℚ) < N := lt_of_lt_of_le one_pos hN1
    have hSstep : (0 : ℚ) ≤ (x - st.M_local)
        * (x - (st.M_local + (x - st.M_local) / N)) := by
      have hrw : (x - st.M_local) * (x - (st.M_local + (x - st.M_local) / N))
          = (x - st.M_local) ^ 2 * ((N - 1) / N) := by
        field_simp
        ring
      rw [hrw]
      exact mul_nonneg (sq_nonneg _) (div_nonneg (by linarith) (by linarith))
    rcases le_or_lt st.M_local x with hmx2 | hmx2
    · have hd0 : (0 : ℚ) ≤ x - st.M_local := by linarith
      have hdiv_le : (x - st.M_local) / N ≤ x - st.M_local :=
        div_le_self hd0 hN1
      have hdiv_nonneg : (0 : ℚ) ≤ (x - st.M_local) / N :=
        div_nonneg hd0 hN0.le
      have hxmn : ¬ x < st.min_value := not_lt.mpr (by linarith)
      refine ⟨?_, ?_, by linarith⟩
      · rw [if_neg hxmn]
        linarith
      · rw [if_neg hxmn]
        rcases lt_or_le st.max_value x with h2 | h2
        · rw [if_pos h2]; linarith
        · rw [if_neg (not_lt.mpr h2)]; linarith
    · have hd0 : (0 : ℚ) ≤ st.M_local - x := by linarith
      have hdiv_le : (st.M_local - x) / N ≤ st.M_local - x :=
        div_le_self hd0 hN1
      have hdiv_nonneg : (0 : ℚ) ≤ (st.M_local - x) / N :=
        div_nonneg hd0 hN0.le
      have hflip : (x - st.M_local) / N = -((st.M_local - x) / N) := by
        ring
      refine ⟨?_, ?_, by linarith⟩
      · rw [hflip]
        rcases lt_or_le x st.min_value with h2 | h2
        · rw [if_pos h2]; linarith
        · rw [if_neg (not_lt.mpr h2)]; linarith
      · rw [hflip]
        rcases lt_or_le x st.min_value with h2 | h2
        · rw [if_pos h2]; linarith
        · rw [if_neg (not_lt.mpr h2), if_neg (not_lt.mpr (by linarith))]
          linarith

theorem processSamples_inv (l : List ℚ) : statsInv (processSamples l) := by
  induction l using List.reverseRecOn with
  | nil => intro h; exact absurd h (by decide)
  | append_singleton l x ih =>
    rw [processSamples_append]
    exact updateSample_preserves_inv _ _ ih

/-! ### Claim theorems for the statistics worker -/

/-- C7: however a finite sample sequence is split into blocks, `stats_worker`
produces the same final result; the final minimum, maximum and mean equal the
direct batch minimum, maximum and arithmetic mean exactly; and the emitted
standard deviation equals the square root of the population variance. -/
theorem stats_worker_streaming_exact :
    (∀ bs1 bs2 : List (List ℚ), bs1.flatten = bs2.flatten →
       stats_worker_result bs1 = stats_worker_result bs2) ∧
    (∀ blocks : List (List ℚ), blocks.flatten ≠ [] →
       (statsRun blocks).min_value = batchMin blocks.flatten ∧
       (statsRun blocks).max_value = batchMax blocks.flatten ∧
       (statsRun blocks).M_local
         = blocks.flatten.sum / (blocks.flatten.length : ℚ) ∧
       Real.sqrt (((statsRun blocks).S_local / ((statsRun blocks).n : ℚ) : ℚ) : ℝ)
         = Real.sqrt ((popVariance blocks.flatten : ℚ) : ℝ)) := by
  constructor
  · intro bs1 bs2 hjoin
    have hrun : statsRun bs1 = statsRun bs2 := by
      rw [statsRun_eq_processSamples, statsRun_eq_processSamples, hjoin]
    unfold stats_worker_result statsResultCore
    rw [hrun]
  · intro blocks hne
    have hrun := statsRun_eq_processSamples blocks
    obtain ⟨hn, hM, hS, hmin, hmax⟩ := processSamples_spec blocks.flatten hne
    rw [hrun]
    refine ⟨hmin, hmax, hM, ?_⟩
    rw [S_div_n_eq_popVariance blocks.flatten hne]

/-- Witness for C7 at a concrete chunking: `[[5],[2,7]]` versus `[[5,2],[7]]`
produce the same result, and on `[[5,2,7]]` the outputs are the batch values. -/
theorem stats_worker_streaming_exact_witness :
    stats_worker_result [[5], [2, 7]] = stats_worker_result [[5, 2], [7]] ∧
    (statsRun [[5, 2, 7]]).min_value = batchMin [5, 2, 7] ∧
    (statsRun [[5, 2, 7]]).max_value = batchMax [5, 2, 7] ∧
    (statsRun [[5, 2, 7]]).M_local = ([5, 2, 7] : List ℚ).sum / (([5, 2, 7] : List ℚ).length : ℚ) := by
  refine ⟨stats_worker_streaming_exact.1 [[5], [2, 7]] [[5, 2], [7]] rfl, ?_⟩
  have h := stats_worker_streaming_exact.2 [[5, 2, 7]] (by simp)
  exact ⟨h.1, h.2.1, h.2.2.1⟩

/-- C8: at end-of-stream, `stats_worker` has consumed exactly the samples of
all blocks; if it consumed at least one sample it emits the 4-tuple
`(min, max, mean, sqrt(S/n))`, and if it consumed none it emits `None`
(no division by zero is attempted). -/
theorem stats_worker_end_of_stream (blocks : List (List ℚ)) :
    (statsRun blocks).n = blocks.flatten.length ∧
    (blocks.flatten ≠ [] →
      stats_worker_result blocks =
        some ((statsRun blocks).min_value, (statsRun blocks).max_value,
              (statsRun blocks).M_local,
              Real.sqrt (((statsRun blocks).S_local / ((statsRun blocks).n : ℚ) : ℚ) : ℝ))) ∧
    (blocks.flatten = [] → stats_worker_result blocks = none) := by
  have hn : (statsRun blocks).n = blocks.flatten.length := by
    rw [statsRun_eq_processSamples]; exact processSamples_length _
  refine ⟨hn, ?_, ?_⟩
  · intro hne
    have hpos : 0 < (statsRun blocks).n := by
      rw [hn]
      exact List.length_pos.mpr hne
    unfold stats_worker_result statsResultCore
    rw [if_pos hpos]
    rfl
  · intro hempty
    have hzero : ¬ 0 < (statsRun blocks).n := by
      rw [hn, hempty]
      simp
    unfold stats_worker_result statsResultCore
    rw [if_neg hzero]
    rfl

/-- Witness for C8: a stream with one nonempty block emits the 4-tuple, and a
stream whose only block is empty emits `None`. -/
theorem stats_worker_end_of_stream_witness :
    stats_worker_result [[3, 1]] =
      some ((statsRun [[3, 1]]).min_value, (statsRun [[3, 1]]).max_value,
            (statsRun [[3, 1]]).M_local,
            Real.sqrt (((statsRun [[3, 1]]).S_local / ((statsRun [[3, 1]]).n : ℚ) : ℚ) : ℝ)) ∧
    stats_worker_result [([] : List ℚ)] = none := by
  exact ⟨(stats_worker_end_of_stream [[3, 1]]).2.1 (by simp),
         (stats_worker_end_of_stream [[]]).2.2 rfl⟩

/-- C10: invariant of the running state — whenever `n ≥ 1`,
`min_value ≤ M_local ≤ max_value` and `S_local ≥ 0`; every per-sample update
preserves this predicate, and it holds after any run. -/
theorem stats_state_invariant :
    (∀ (st : StatsState) (x : ℚ), statsInv st → statsInv (updateSample st x)) ∧
    (∀ blocks : List (List ℚ), statsInv (statsRun blocks)) := by
  refine ⟨updateSample_preserves_inv, ?_⟩
  intro blocks
  rw [statsRun_eq_processSamples]
  exact processSamples_inv _

/-- Witness for C10 at a concrete state and sample, and a concrete run. -/
theorem stats_state_invariant_witness :
    statsInv (updateSample ⟨1, 2, 0, 2, 2⟩ 4) ∧ statsInv (statsRun [[1, 2]]) :=
  ⟨stats_state_invariant.1 ⟨1, 2, 0, 2, 2⟩ 4 (by intro h; exact ⟨le_refl _, le_refl _, le_refl _⟩),
   stats_state_invariant.2 [[1, 2]]⟩

/-! ## Distance transform, phase 1 (`distance_transform_edt`, scan 1)

Phase 1 works per column.  Its forward sweep is
`g[0] = (mask[0] == 0) * numerical_inf` and, for `row > 0`,
`g[row] = 0 if mask[row] == 1 else g[row-1] + 1`; the backward sweep walks
`row` from `n_rows-2` down to `0` doing
`if g[row+1] < g[row]: g[row] = 1 + g[row+1]`.
The backward sweep is modelled by recursion on the offset `k` from the
bottom row, so `phase1Back m inf H k` is the final value at row `H-1-k`.
-/

/-- The constant `cdef float NODATA = -1.0`, the nodata sentinel used for the mask and
`g` rasters of the distance transform. -/
def NODATA : ℤ := -1

/-- The per-cell function of `MaskWrapper.__call__`: `NODATA` where the source equals its
nodata value, else `base_array != 0`. -/
def maskWrapper (base_nodata x : ℤ) : ℤ :=
  if x = base_nodata then NODATA else if x ≠ 0 then 1 else 0

/-- Forward sweep of phase 1 on one column `m` (top to bottom). -/
def phase1Forward (m : ℕ → ℤ) (inf : ℤ) : ℕ → ℤ
  | 0 => if m 0 = 0 then inf else 0
  | r + 1 => if m (r + 1) = 1 then 0 else phase1Forward m inf r + 1

/-- Backward sweep of phase 1; `phase1Back m inf H k` is the value at row
`H - 1 - k` after the sweep reached that row from the bottom. -/
def phase1Back (m : ℕ → ℤ) (inf : ℤ) (H : ℕ) : ℕ → ℤ
  | 0 => phase1Forward m inf (H - 1)
  | k + 1 =>
    let below := phase1Back m inf H k
    let here := phase1Forward m inf (H - 1 - (k + 1))
    if below < here then below + 1 else here

/-- The value of the intermediate raster `G` at row `r` of a column `m`
after both sweeps of phase 1. -/
def phase1 (m : ℕ → ℤ) (inf : ℤ) (H : ℕ) (r : ℕ) : ℤ :=
  phase1Back m inf H (H - 1 - r)

/-- The foreground rows (`mask == 1`) of a column, restricted to the raster
height. -/
def colFg (m : ℕ → ℤ) (H : ℕ) : Finset ℕ :=
  (Finset.range H).filter fun i => m i = 1

/-! ### Lemmas about phase 1 -/

theorem phase1Forward_nonneg (m : ℕ → ℤ) (inf : ℤ) (hinf : 0 ≤ inf) :
    ∀ r, 0 ≤ phase1Forward m inf r := by
  intro r
  induction r with
  | zero =>
    unfold phase1Forward
    split <;> omega
  | succ r ih =>
    unfold phase1Forward
    split <;> omega

theorem phase1Forward_le (m : ℕ → ℤ) (inf : ℤ) :
    ∀ r i : ℕ, i ≤ r → m i = 1 → phase1Forward m inf r ≤ (r : ℤ) - (i : ℤ) := by
  intro r
  induction r with
  | zero =>
    intro i hi hfg
    interval_cases i
    unfold phase1Forward
    rw [if_neg (by rw [hfg]; decide)]
    simp
  | succ r ih =>
    intro i hi hfg
    unfold phase1Forward
    by_cases h1 : m (r + 1) = 1
    · rw [if_pos h1]
      have : (i : ℤ) ≤ (r : ℤ) + 1 := by exact_mod_cast hi
      push_cast
      omega
    · rw [if_neg h1]
      have hir : i ≤ r := by
        rcases Nat.lt_or_ge i (r + 1) with h | h
        · omega
        · exfalso; exact h1 (by rwa [Nat.le_antisymm hi h] at hfg)
      have := ih i hir hfg
      push_cast
      push_cast at this
      omega

theorem phase1Forward_char (m : ℕ → ℤ) (inf : ℤ) :
    ∀ r : ℕ, (∀ i, i ≤ r → m i = 0 ∨ m i = 1) →
      (∃ i : ℕ, i ≤ r ∧ m i = 1 ∧ phase1Forward m inf r = (r : ℤ) - (i : ℤ)) ∨
      ((∀ i, i ≤ r → m i ≠ 1) ∧ phase1Forward m inf r = inf + (r : ℤ)) := by
  intro r
  induction r with
  | zero =>
    intro hbin
    rcases hbin 0 le_rfl with h0 | h1
    · right
      refine ⟨?_, ?_⟩
      · intro i hi
        interval_cases i
        rw [h0]; decide
      · unfold phase1Forward
        rw [if_pos h0]
        simp
    · left
      exact ⟨0, le_rfl, h1, by unfold phase1Forward; rw [if_neg (by rw [h1]; decide)]; simp⟩
  | succ r ih =>
    intro hbin
    have hbin' : ∀ i, i ≤ r → m i = 0 ∨ m i = 1 := fun i hi => hbin i (by omega)
    by_cases h1 : m (r + 1) = 1
    · left
      refine ⟨r + 1, le_rfl, h1, ?_⟩
      unfold phase1Forward
      rw [if_pos h1]
      push_cast
      ring
    · rcases ih hbin' with ⟨i, hi, hfg, hval⟩ | ⟨hnofg, hval⟩
      · left
        refine ⟨i, by omega, hfg, ?_⟩
        unfold phase1Forward
        rw [if_neg h1, hval]
        push_cast
        ring
      · right
        refine ⟨?_, ?_⟩
        · intro i hi
          rcases Nat.lt_or_ge i (r + 1) with h | h
          · exact hnofg i (by omega)
          · rwa [Nat.le_antisymm hi h]
        · unfold phase1Forward
          rw [if_neg h1, hval]
          push_cast
          ring

/-- The combined bound/characterization of the backward sweep: at row
`H - 1 - k` the value is a lower bound on no distance to a foreground row,
and is either such a distance or the `inf + row` overflow value. -/
theorem phase1Back_spec (m : ℕ → ℤ) (inf : ℤ) (H : ℕ) (hH : 1 ≤ H)
    (hbin : ∀ i, i < H → m i = 0 ∨ m i = 1) (hinf : (H : ℤ) ≤ inf) :
    ∀ k, k ≤ H - 1 →
      (∀ i, i < H → m i = 1 →
        phase1Back m inf H k ≤ |((H - 1 - k : ℕ) : ℤ) - (i : ℤ)|) ∧
      ((∃ i, i < H ∧ m i = 1 ∧
          phase1Back m inf H k = |((H - 1 - k : ℕ) : ℤ) - (i : ℤ)|) ∨
        phase1Back m inf H k = inf + ((H - 1 - k : ℕ) : ℤ)) := by
  intro k
  induction k with
  | zero =>
    intro _
    have hr : H - 1 - 0 = H - 1 := by omega
    constructor
    · intro i hi hfg
      have hile : i ≤ H - 1 := by omega
      have hle := phase1Forward_le m inf (H - 1) i hile hfg
      have habs : |((H - 1 - 0 : ℕ) : ℤ) - (i : ℤ)| = ((H - 1 : ℕ) : ℤ) - (i : ℤ) := by
        rw [hr, abs_of_nonneg]
        have : (i : ℤ) ≤ ((H - 1 : ℕ) : ℤ) := by exact_mod_cast hile
        omega
      rw [habs]
      exact hle
    · rcases phase1Forward_char m inf (H - 1)
          (fun i hi => hbin i (by omega)) with ⟨i, hi, hfg, hval⟩ | ⟨_, hval⟩
      · left
        refine ⟨i, by omega, hfg, ?_⟩
        unfold phase1Back
        rw [hval, hr, abs_of_nonneg]
        have : (i : ℤ) ≤ ((H - 1 : ℕ) : ℤ) := by exact_mod_cast hi
        omega
      · right
        unfold phase1Back
        rw [hval, hr]
  | succ k ih =>
    intro hk
    have hk' : k ≤ H - 1 := by omega
    obtain ⟨ihle, ihmem⟩ := ih hk'
    -- row bookkeeping: r' = H-1-(k+1) and the row below it is r'+1 = H-1-k
    have hrow : H - 1 - k = (H - 1 - (k + 1)) + 1 := by clear ihle ihmem; omega
    set r' : ℕ := H - 1 - (k + 1) with hr'
    have hr'H : r' < H := by omega
    have hmin : phase1Back m inf H (k + 1)
        = min (phase1Forward m inf r') (phase1Back m inf H k + 1) := by
      show (if phase1Back m inf H k < phase1Forward m inf r' then
              phase1Back m inf H k + 1 else phase1Forward m inf r')
            = min (phase1Forward m inf r') (phase1Back m inf H k + 1)
      rcases lt_or_le (phase1Back m inf H k) (phase1Forward m inf r') with h | h
      · rw [if_pos h, min_eq_right (by omega)]
      · rw [if_neg (not_lt.mpr h), min_eq_left (by omega)]
    constructor
    · intro i hi hfg
      rcases Nat.lt_or_ge r' i with hgt | hle
      · -- foreground strictly below r': go through the row below
        have h1 := ihle i hi hfg
        rw [hrow] at h1
        have habs : |((r' + 1 : ℕ) : ℤ) - (i : ℤ)| = (i : ℤ) - (r' : ℤ) - 1 := by
          have : (r' : ℤ) + 1 ≤ (i : ℤ) := by exact_mod_cast hgt
          rw [abs_of_nonpos (by push_cast; omega)]
          push_cast
          ring
        rw [habs] at h1
        have habs2 : |((r' : ℕ) : ℤ) - (i : ℤ)| = (i : ℤ) - (r' : ℤ) := by
          have : (r' : ℤ) + 1 ≤ (i : ℤ) := by exact_mod_cast hgt
          rw [abs_of_nonpos (by omega)]
          ring
        rw [hmin, habs2]
        have := min_le_right (phase1Forward m inf r') (phase1Back m inf H k + 1)
        omega
      · -- foreground at or above r': the forward sweep already bounds it
        have h1 := phase1Forward_le m inf r' i hle hfg
        have habs : |((r' : ℕ) : ℤ) - (i : ℤ)| = (r' : ℤ) - (i : ℤ) := by
          rw [abs_of_nonneg]
          have : (i : ℤ) ≤ (r' : ℤ) := by exact_mod_cast hle
          omega
        rw [hmin, habs]
        have := min_le_left (phase1Forward m inf r') (phase1Back m inf H k + 1)
        omega
    · rw [hmin]
      rcases lt_or_le (phase1Back m inf H k + 1) (phase1Forward m inf r') with hc | hc
      · -- the value from below wins
        rw [min_eq_right hc.le]
        rcases ihmem with ⟨i, hi, hfg, hval⟩ | hval
        · rw [hrow] at hval
          rcases Nat.lt_or_ge r' i with hgt | hle
          · left
            refine ⟨i, hi, hfg, ?_⟩
            have : (r' : ℤ) + 1 ≤ (i : ℤ) := by exact_mod_cast hgt
            rw [abs_of_nonpos (by omega)]
            rw [abs_of_nonpos (by push_cast; omega)] at hval
            push_cast at hval ⊢
            omega
          · -- would contradict: the forward value at r' is at most the distance
            exfalso
            have h1 := phase1Forward_le m inf r' i hle hfg
            have : (i : ℤ) ≤ (r' : ℤ) := by exact_mod_cast hle
            rw [abs_of_nonneg (by push_cast; omega)] at hval
            push_cast at hval
            omega
        · -- below is inf + (r'+1), which never beats the forward value
          exfalso
          rw [hrow] at hval
          rcases phase1Forward_char m inf r'
              (fun i hi => hbin i (by omega)) with ⟨i, hi, hfg, hv⟩ | ⟨_, hv⟩
          · have : (i : ℤ) ≤ (r' : ℤ) := by exact_mod_cast hi
            have : (r' : ℤ) < H := by exact_mod_cast hr'H
            push_cast at hval
            omega
          · push_cast at hval
            omega
      · rw [min_eq_left hc]
        rcases phase1Forward_char m inf r'
            (fun i hi => hbin i (by omega)) with ⟨i, hi, hfg, hv⟩ | ⟨_, hv⟩
        · left
          refine ⟨i, by omega, hfg, ?_⟩
          rw [hv, abs_of_nonneg]
          have : (i : ℤ) ≤ (r' : ℤ) := by exact_mod_cast hi
          omega
        · right
          rw [hv]

/-- Phase 1 never produces a negative value (in particular never the
`NODATA` sentinel `-1`), for any mask contents. -/
theorem phase1_nonneg (m : ℕ → ℤ) (inf : ℤ) (hinf : 0 ≤ inf) (H : ℕ) (r : ℕ) :
    0 ≤ phase1 m inf H r := by
  unfold phase1
  generalize H - 1 - r = k
  induction k with
  | zero => exact phase1Forward_nonneg m inf hinf _
  | succ k ih =>
    unfold phase1Back
    have := phase1Forward_nonneg m inf hinf (H - 1 - (k + 1))
    dsimp only
    split <;> omega

/-! ### Claim theorem for phase 1 (C3) -/

/-- C3: after the forward and backward sweeps, each cell of a binary column
holds the exact 1-D distance (in rows) to the nearest foreground row,
minimized over both directions; when the column has no foreground at all the
value is at least `INF = width + height`, which exceeds every achievable
true distance. -/
theorem phase1_column_exact (m : ℕ → ℤ) (W H : ℕ) (hH : 1 ≤ H)
    (hbin : ∀ i, i < H → m i = 0 ∨ m i = 1) (r : ℕ) (hr : r < H) :
    (∀ hne : (colFg m H).Nonempty,
       phase1 m ((W : ℤ) + (H : ℤ)) H r
         = (colFg m H).inf' hne (fun i => |(r : ℤ) - (i : ℤ)|)) ∧
    (colFg m H = ∅ → ((W : ℤ) + (H : ℤ)) ≤ phase1 m ((W : ℤ) + (H : ℤ)) H r) := by
  have hinf : (H : ℤ) ≤ (W : ℤ) + (H : ℤ) := by
    have : (0 : ℤ) ≤ (W : ℤ) := Int.ofNat_nonneg W
    omega
  have hk : H - 1 - r ≤ H - 1 := by omega
  have hrr : H - 1 - (H - 1 - r) = r := by omega
  obtain ⟨hle, hmem⟩ := phase1Back_spec m ((W : ℤ) + (H : ℤ)) H hH hbin hinf (H - 1 - r) hk
  rw [hrr] at hle hmem
  constructor
  · intro hne
    apply le_antisymm
    · apply Finset.le_inf'
      intro i hi
      have hi' : i < H ∧ m i = 1 := by
        simpa [colFg, Finset.mem_filter, Finset.mem_range] using hi
      exact hle i hi'.1 hi'.2
    · rcases hmem with ⟨i, hi, hfg, hval⟩ | hval
      · have himem : i ∈ colFg m H := by
          simp [colFg, Finset.mem_filter, Finset.mem_range, hi, hfg]
        simp only [phase1]
        rw [hval]
        exact Finset.inf'_le _ himem
      · exfalso
        obtain ⟨i0, hi0⟩ := hne
        have hi0' : i0 < H ∧ m i0 = 1 := by
          simpa [colFg, Finset.mem_filter, Finset.mem_range] using hi0
        have hb := hle i0 hi0'.1 hi0'.2
        have h1 : |(r : ℤ) - (i0 : ℤ)| ≤ (H : ℤ) - 1 := by
          have hrz : (r : ℤ) < (H : ℤ) := by exact_mod_cast hr
          have hiz : (i0 : ℤ) < (H : ℤ) := by exact_mod_cast hi0'.1
          have hrz0 : (0 : ℤ) ≤ (r : ℤ) := Int.ofNat_nonneg r
          have hiz0 : (0 : ℤ) ≤ (i0 : ℤ) := Int.ofNat_nonneg i0
          rw [abs_sub_le_iff]
          omega
        have h2 : (0 : ℤ) ≤ (r : ℤ) := Int.ofNat_nonneg r
        simp only [phase1] at hb
        rw [hval] at hb
        omega
  · intro hempty
    rcases hmem with ⟨i, hi, hfg, _⟩ | hval
    · exfalso
      have : i ∈ colFg m H := by
        simp [colFg, Finset.mem_filter, Finset.mem_range, hi, hfg]
      rw [hempty] at this
      exact absurd this (Finset.not_mem_empty i)
    · simp only [phase1]
      rw [hval]
      have : (0 : ℤ) ≤ (r : ℤ) := Int.ofNat_nonneg r
      omega

/-- Witness for C3 on a concrete column: height 4, width 3, foreground only
at row 2; the cell at row 0 gets distance 2. -/
theorem phase1_column_exact_witness :
    phase1 (fun i => if i = 2 then 1 else 0) ((3 : ℤ) + (4 : ℤ)) 4 0
      = (colFg (fun i => if i = 2 then 1 else 0) 4).inf'
          ⟨2, by decide⟩ (fun i => |(0 : ℤ) - (i : ℤ)|) :=
  (phase1_column_exact (fun i => if i = 2 then 1 else 0) 3 4 (by decide)
    (by decide) 0 (by decide)).1 ⟨2, by decide⟩

/-! ## Distance transform, phase 2 (`distance_transform_edt`, scan 2)

Phase 2 works per row on `g(u) = g_block[row, u]`.  The `s_array`/`t_array`
stack indexed by `q_index` is modelled as a `List (ℤ × ℤ)` of `(s, t)`
pairs whose head is the entry at `q_index`; `t_array[0]` is initialized to
`0` and never overwritten (pushes always write at `q_index + 1 ≥ 1`), so an
emptied-and-reset stack is `[(u, 0)]`.  `cdef int` arithmetic, including
the C truncated division of `w`, is carried out in `ℤ`.
-/

/-- The squared-distance parabola of column `i` evaluated at abscissa `x`:
`f(x, i) = (x - i)² + g(i)²`. -/
def fP (g : ℤ → ℤ) (x i : ℤ) : ℤ := (x - i) ^ 2 + g i ^ 2

/-- The `while q_index >= 0` pop loop for a new column `u`: pop while the
top entry `(sq, tq)` satisfies `(tq-sq)² + gsq > (tq-u)² + gu`. -/
def popLoop (g : ℤ → ℤ) (u : ℤ) : List (ℤ × ℤ) → List (ℤ × ℤ)
  | [] => []
  | (s, t) :: rest =>
    if (t - s) ^ 2 + g s ^ 2 ≤ (t - u) ^ 2 + g u ^ 2 then (s, t) :: rest
    else popLoop g u rest

/-- The intersection abscissa `w = 1 + (u**2 - sq**2 + gu - gsq) / (2*(u_index-sq))` with the C
(`cdivision(True)`) truncated integer division. -/
def sepPlus (g : ℤ → ℤ) (s u : ℤ) : ℤ :=
  1 + Int.tdiv (u ^ 2 - s ^ 2 + g u ^ 2 - g s ^ 2) (2 * (u - s))

/-- One iteration of the `for u_index in range(1, n_cols)` loop: pop, then
either reset to the singleton stack `[(u, 0)]` or push `(u, w)` when
`w < n_cols`. -/
def scanStep (g : ℤ → ℤ) (n u : ℤ) (st : List (ℤ × ℤ)) : List (ℤ × ℤ) :=
  match popLoop g u st with
  | [] => [(u, 0)]
  | (s, t) :: rest =>
    let w := sepPlus g s u
    if w < n then (u, w) :: (s, t) :: rest else (s, t) :: rest

/-- The forward pass after processing columns `1 .. k`, starting from
`q_index = 0`, `s_array[0] = 0`, `t_array[0] = 0`. -/
def forwardScan (g : ℤ → ℤ) (n : ℤ) : ℕ → List (ℤ × ℤ)
  | 0 => [(0, 0)]
  | k + 1 => scanStep g n ((k + 1 : ℕ) : ℤ) (forwardScan g n k)

/-- The backward pass `for u_index in range(n_cols-1, -1, -1)`, carrying the
current top `(sq, tq)` and the rest of the stack; prepends
`dt[u] = (u-sq)² + gsq` for `u, u-1, …, 0` to `acc`.  When `u == tq` the
stack is popped; an over-popped empty stack keeps the stale `sq`/`tq`
exactly as the code does when `q_index` would go negative. -/
def backScan (g : ℤ → ℤ) : ℕ → List (ℤ × ℤ) → ℤ → ℤ → List ℤ → List ℤ
  | 0, _, sq, _, acc => (((0 : ℤ) - sq) ^ 2 + g sq ^ 2) :: acc
  | v + 1, stk, sq, tq, acc =>
    let d := (((v + 1 : ℕ) : ℤ) - sq) ^ 2 + g sq ^ 2
    if ((v + 1 : ℕ) : ℤ) = tq then
      match stk with
      | [] => backScan g v [] sq tq (d :: acc)
      | (s', t') :: rest => backScan g v rest s' t' (d :: acc)
    else
      backScan g v stk sq tq (d :: acc)

/-- Phase 2 on one row: the list `dt[0 .. n-1]` of squared distances
produced by the forward pass followed by the backward pass. -/
def phase2Row (g : ℤ → ℤ) (n : ℕ) : List ℤ :=
  match forwardScan g (n : ℤ) (n - 1) with
  | [] => []
  | (s, t) :: rest => backScan g (n - 1) rest s t []

/-- Brute-force reference: `min_{0 ≤ j < n} (u - j)² + g(j)²`. -/
def bruteMinSq (g : ℤ → ℤ) (n : ℕ) (u : ℤ) : ℤ :=
  if h : n = 0 then 0
  else (Finset.range n).inf' (Finset.nonempty_range_iff.mpr h)
        (fun j => fP g u (j : ℤ))

/-- The column whose parabola the stack assigns to abscissa `x`: the first
entry (from the top) whose `t` is at most `x`. -/
def select : List (ℤ × ℤ) → ℤ → ℤ
  | [], _ => 0
  | (s, t) :: rest, x => if t ≤ x then s else select rest x

/-- The forward-pass invariant after processing columns `0 .. u` with `n`
columns in total. -/
structure P2Inv (g : ℤ → ℤ) (n u : ℤ) (st : List (ℤ × ℤ)) : Prop where
  ne : st ≠ []
  bottom : ∃ s0, st.getLast? = some (s0, 0)
  mem_s : ∀ p ∈ st, 0 ≤ p.1 ∧ p.1 ≤ u
  mem_t : ∀ p ∈ st, 0 ≤ p.2 ∧ p.2 < n
  pairwise : st.Pairwise (fun a b => b.2 < a.2 ∧ b.1 < a.1)
  dmin : ∀ x, 0 ≤ x → x < n → ∀ j, 0 ≤ j → j ≤ u →
    fP g x (select st x) ≤ fP g x j

/-! ### Parabola-separator lemmas -/

/-- Comparing two parabolas at `x` is a linear comparison: for `s < u`,
`f(x,s) ≤ f(x,u) ↔ 2(u-s)·x ≤ u² - s² + g(u)² - g(s)²`. -/
theorem fP_le_iff (g : ℤ → ℤ) {s u x : ℤ} (h : s < u) :
    fP g x s ≤ fP g x u ↔
      2 * (u - s) * x ≤ u ^ 2 - s ^ 2 + g u ^ 2 - g s ^ 2 := by
  unfold fP
  constructor <;> intro h' <;> nlinarith

/-- If the new parabola `u` strictly beats the parabola `s` at `t`, it
strictly beats it at every `x ≥ t`. -/
theorem fP_dominate_ge (g : ℤ → ℤ) {s u t x : ℤ} (hsu : s < u)
    (ht : fP g t u < fP g t s) (hx : t ≤ x) : fP g x u < fP g x s := by
  rw [← not_le] at ht ⊢
  intro hcon
  apply ht
  rw [fP_le_iff g hsu] at hcon ⊢
  nlinarith

/-- When the break condition holds at the top entry `(s, t)` with `t ≥ 0`,
the numerator of the separator formula is nonnegative. -/
theorem sep_num_nonneg (g : ℤ → ℤ) {s t u : ℤ} (hsu : s < u) (ht0 : 0 ≤ t)
    (hbreak : fP g t s ≤ fP g t u) :
    0 ≤ u ^ 2 - s ^ 2 + g u ^ 2 - g s ^ 2 := by
  rw [fP_le_iff g hsu] at hbreak
  nlinarith

/-- The separator abscissa splits the line exactly: for `s < u` (with a
nonnegative numerator, as guaranteed at every use), `x < w` iff the old
parabola still wins at `x`. -/
theorem lt_sepPlus_iff (g : ℤ → ℤ) {s u x : ℤ} (hsu : s < u)
    (hN : 0 ≤ u ^ 2 - s ^ 2 + g u ^ 2 - g s ^ 2) :
    x < sepPlus g s u ↔ fP g x s ≤ fP g x u := by
  unfold sepPlus
  have hD : (0 : ℤ) < 2 * (u - s) := by omega
  rw [Int.tdiv_eq_ediv hN (by omega)]
  rw [fP_le_iff g hsu]
  constructor
  · intro h
    have h1 : x ≤ (u ^ 2 - s ^ 2 + g u ^ 2 - g s ^ 2) / (2 * (u - s)) := by omega
    have := (Int.le_ediv_iff_mul_le hD).mp h1
    nlinarith
  · intro h
    have h1 : x * (2 * (u - s)) ≤ u ^ 2 - s ^ 2 + g u ^ 2 - g s ^ 2 := by nlinarith
    have := (Int.le_ediv_iff_mul_le hD).mpr h1
    omega

/-- The separator value is at least 1 when the numerator is nonnegative. -/
theorem sepPlus_pos (g : ℤ → ℤ) {s u : ℤ} (hsu : s < u)
    (hN : 0 ≤ u ^ 2 - s ^ 2 + g u ^ 2 - g s ^ 2) : 1 ≤ sepPlus g s u := by
  unfold sepPlus
  have := Int.tdiv_nonneg hN (by omega : (0 : ℤ) ≤ 2 * (u - s))
  omega

/-! ### Pop-loop and select lemmas -/

theorem popLoop_split (g : ℤ → ℤ) (u : ℤ) :
    ∀ st : List (ℤ × ℤ), ∃ pre, st = pre ++ popLoop g u st ∧
      ∀ p ∈ pre, fP g p.2 u < fP g p.2 p.1 := by
  intro st
  induction st with
  | nil => exact ⟨[], rfl, by simp⟩
  | cons hd rest ih =>
    obtain ⟨s, t⟩ := hd
    by_cases hc : (t - s) ^ 2 + g s ^ 2 ≤ (t - u) ^ 2 + g u ^ 2
    · refine ⟨[], ?_, by simp⟩
      simp only [popLoop, if_pos hc, List.nil_append]
    · obtain ⟨pre, hsplit, hpre⟩ := ih
      refine ⟨(s, t) :: pre, ?_, ?_⟩
      · simp only [popLoop, if_neg hc, List.cons_append]
        rw [← hsplit]
      · intro p hp
        rcases List.mem_cons.mp hp with rfl | hp'
        · simpa [fP] using lt_of_not_le hc
        · exact hpre p hp'

theorem popLoop_head (g : ℤ → ℤ) (u : ℤ) :
    ∀ (st rest : List (ℤ × ℤ)) (s t : ℤ), popLoop g u st = (s, t) :: rest →
      fP g t s ≤ fP g t u := by
  intro st
  induction st with
  | nil => intro rest s t h; simp [popLoop] at h
  | cons hd rest0 ih =>
    intro rest s t h
    obtain ⟨s0, t0⟩ := hd
    by_cases hc : (t0 - s0) ^ 2 + g s0 ^ 2 ≤ (t0 - u) ^ 2 + g u ^ 2
    · simp only [popLoop, if_pos hc] at h
      rcases List.cons_eq_cons.mp h with ⟨heq, -⟩
      cases heq
      simpa [fP] using hc
    · simp only [popLoop, if_neg hc] at h
      exact ih rest s t h

theorem select_append_of_gt (x : ℤ) :
    ∀ (pre R : List (ℤ × ℤ)), (∀ p ∈ pre, x < p.2) →
      select (pre ++ R) x = select R x := by
  intro pre
  induction pre with
  | nil => intro R _; rfl
  | cons hd rest ih =>
    intro R hgt
    obtain ⟨s, t⟩ := hd
    have hxt : x < t := hgt (s, t) (List.mem_cons_self _ _)
    simp only [List.cons_append, select, if_neg (not_le.mpr hxt)]
    exact ih R fun p hp => hgt p (List.mem_cons_of_mem _ hp)

/-- If the head `(s, t)` of the suffix is active at `x` (that is `t ≤ x`),
`select` on the whole stack yields either a popped entry that is active at
`x`, or `s` itself. -/
theorem select_append_mem (x s t : ℤ) (rest : List (ℤ × ℤ)) (ht : t ≤ x) :
    ∀ pre : List (ℤ × ℤ),
      (∃ p ∈ pre, p.2 ≤ x ∧ select (pre ++ (s, t) :: rest) x = p.1) ∨
      select (pre ++ (s, t) :: rest) x = s := by
  intro pre
  induction pre with
  | nil => right; simp [select, if_pos ht]
  | cons hd pre' ih =>
    obtain ⟨s0, t0⟩ := hd
    by_cases hc : t0 ≤ x
    · left
      exact ⟨(s0, t0), List.mem_cons_self _ _, hc, by simp [select, if_pos hc]⟩
    · rcases ih with ⟨p, hp, hpx, hsel⟩ | hsel
      · left
        refine ⟨p, List.mem_cons_of_mem _ hp, hpx, ?_⟩
        simpa [select, if_neg hc] using hsel
      · right
        simpa [select, if_neg hc] using hsel

/-- On a stack whose bottom entry has `t = 0`, `select` at any `x ≥ 0`
returns the column of an entry that is active at `x`. -/
theorem select_mem (x : ℤ) (hx : 0 ≤ x) :
    ∀ st : List (ℤ × ℤ), (∃ s0, st.getLast? = some (s0, 0)) →
      ∃ p ∈ st, select st x = p.1 ∧ p.2 ≤ x := by
  intro st
  induction st with
  | nil => rintro ⟨s0, h⟩; simp at h
  | cons hd rest ih =>
    rintro ⟨s0, hlast⟩
    obtain ⟨s, t⟩ := hd
    by_cases hc : t ≤ x
    · exact ⟨(s, t), List.mem_cons_self _ _, by simp [select, if_pos hc], hc⟩
    · rcases rest with _ | ⟨hd2, rest2⟩
      · exfalso
        have heq : (s, t) = (s0, 0) := by simpa using hlast
        have ht : t = 0 := (Prod.ext_iff.mp heq).2
        omega
      · obtain ⟨p, hp, hsel, hpx⟩ := ih ⟨s0, by
          rw [← List.getLast?_cons_cons]
          exact hlast⟩
        refine ⟨p, List.mem_cons_of_mem _ hp, ?_, hpx⟩
        show (if t ≤ x then s else select (hd2 :: rest2) x) = p.1
        rw [if_neg hc]
        exact hsel

theorem select_cons (s t x : ℤ) (rest : List (ℤ × ℤ)) :
    select ((s, t) :: rest) x = if t ≤ x then s else select rest x := rfl

theorem scanStep_of_popLoop_nil {g : ℤ → ℤ} {n u : ℤ} {st : List (ℤ × ℤ)}
    (h : popLoop g u st = []) : scanStep g n u st = [(u, 0)] := by
  unfold scanStep
  rw [h]

theorem scanStep_of_popLoop_cons {g : ℤ → ℤ} {n u s t : ℤ}
    {st rest : List (ℤ × ℤ)} (h : popLoop g u st = (s, t) :: rest) :
    scanStep g n u st =
      if sepPlus g s u < n then (u, sepPlus g s u) :: (s, t) :: rest
      else (s, t) :: rest := by
  unfold scanStep
  rw [h]

/-- The heart of phase 2: one iteration of the forward scan preserves the
lower-envelope invariant, with the processed-column bound advancing from
`u` to `u + 1`. -/
theorem scanStep_preserves (g : ℤ → ℤ) (n u : ℤ) (st : List (ℤ × ℤ))
    (inv : P2Inv g n u st) (hu0 : 0 ≤ u) (hun : u + 1 < n) :
    P2Inv g n (u + 1) (scanStep g n (u + 1) st) := by
  obtain ⟨pre, hsplit, hpop⟩ := popLoop_split g (u + 1) st
  have hpopdom : ∀ p ∈ pre, ∀ x, p.2 ≤ x → fP g x (u + 1) < fP g x p.1 := by
    intro p hp x hx
    have hmem : p ∈ st := hsplit ▸ List.mem_append_left _ hp
    have hs := (inv.mem_s p hmem).2
    exact fP_dominate_ge g (by omega) (hpop p hp) hx
  cases hR : popLoop g (u + 1) st with
  | nil =>
    rw [scanStep_of_popLoop_nil hR]
    rw [hR, List.append_nil] at hsplit
    refine ⟨by simp, ⟨u + 1, rfl⟩, ?_, ?_, ?_, ?_⟩
    · intro p hp
      have : p = (u + 1, 0) := by simpa using hp
      rw [this]
      exact ⟨by omega, le_refl _⟩
    · intro p hp
      have : p = (u + 1, 0) := by simpa using hp
      rw [this]
      exact ⟨le_refl _, by omega⟩
    · simp
    · intro x hx0 hxn j hj0 hju
      have hsel : select [(u + 1, 0)] x = u + 1 := by
        rw [select_cons, if_pos hx0]
      rw [hsel]
      rcases eq_or_lt_of_le hju with rfl | hju'
      · exact le_refl _
      · have hold := inv.dmin x hx0 hxn j hj0 (by omega)
        obtain ⟨p, hp, hselst, hpx⟩ := select_mem x hx0 st inv.bottom
        have hdom := hpopdom p (hsplit ▸ hp) x hpx
        rw [hselst] at hold
        exact le_of_lt (lt_of_lt_of_le hdom hold)
  | cons hd rest =>
    obtain ⟨s, t⟩ := hd
    have hRsub : ∀ p ∈ (s, t) :: rest, p ∈ st := by
      intro p hp
      exact hsplit ▸ List.mem_append_right _ (hR ▸ hp)
    have hst_mem : (s, t) ∈ st := hRsub (s, t) (List.mem_cons_self _ _)
    have hs0 : 0 ≤ s := (inv.mem_s _ hst_mem).1
    have hs_le : s ≤ u := (inv.mem_s _ hst_mem).2
    have hsu : s < u + 1 := by omega
    have ht0 : 0 ≤ t := (inv.mem_t _ hst_mem).1
    have htn : t < n := (inv.mem_t _ hst_mem).2
    have hbreak : fP g t s ≤ fP g t (u + 1) := popLoop_head g (u + 1) st rest s t hR
    have hN : 0 ≤ (u + 1) ^ 2 - s ^ 2 + g (u + 1) ^ 2 - g s ^ 2 :=
      sep_num_nonneg g hsu ht0 hbreak
    have hwin_iff : ∀ x : ℤ, x < sepPlus g s (u + 1) ↔ fP g x s ≤ fP g x (u + 1) :=
      fun x => lt_sepPlus_iff g hsu hN
    have hw1 : 1 ≤ sepPlus g s (u + 1) := sepPlus_pos g hsu hN
    have htw : t < sepPlus g s (u + 1) := (hwin_iff t).mpr hbreak
    have hsplitR : st = pre ++ (s, t) :: rest := by rw [hsplit, hR]
    have hbottomR : ∃ s0, ((s, t) :: rest).getLast? = some (s0, 0) := by
      obtain ⟨s0, hlast⟩ := inv.bottom
      refine ⟨s0, ?_⟩
      rw [hsplitR] at hlast
      rwa [List.getLast?_append_of_ne_nil _ (by simp)] at hlast
    have hpw := inv.pairwise
    rw [hsplitR] at hpw
    obtain ⟨hpair_pre, hpairR, hcross⟩ := List.pairwise_append.mp hpw
    -- CLAIM1: below the separator the remaining stack keeps winning
    have claim1 : ∀ x, 0 ≤ x → x < n → x < sepPlus g s (u + 1) →
        ∀ j, 0 ≤ j → j ≤ u + 1 →
          fP g x (select ((s, t) :: rest) x) ≤ fP g x j := by
      intro x hx0 hxn hxw j hj0 hju
      by_cases hxt : t ≤ x
      · rw [select_cons, if_pos hxt]
        rcases eq_or_lt_of_le hju with rfl | hju'
        · exact (hwin_iff x).mp hxw
        · have hold := inv.dmin x hx0 hxn j hj0 (by omega)
          rcases select_append_mem x s t rest hxt pre with ⟨p, hp, hpx, hselst⟩ | hselst
          · rw [hsplitR, hselst] at hold
            have hdom := hpopdom p hp x hpx
            have hwinx := (hwin_iff x).mp hxw
            exact le_of_lt (lt_of_le_of_lt hwinx (lt_of_lt_of_le hdom hold))
          · rw [hsplitR, hselst] at hold
            exact hold
      · have hxt' : x < t := not_le.mp hxt
        rw [select_cons, if_neg hxt]
        have hprex : ∀ p ∈ pre, x < p.2 := by
          intro p hp
          have := (hcross p hp (s, t) (List.mem_cons_self _ _)).1
          omega
        have hselst : select st x = select rest x := by
          rw [hsplitR, select_append_of_gt x pre _ hprex, select_cons, if_neg hxt]
        rcases eq_or_lt_of_le hju with rfl | hju'
        · have hold := inv.dmin x hx0 hxn s hs0 hs_le
          rw [hselst] at hold
          exact le_trans hold ((hwin_iff x).mp hxw)
        · have hold := inv.dmin x hx0 hxn j hj0 (by omega)
          rw [hselst] at hold
          exact hold
    -- CLAIM2: at and above the separator the new column wins
    have claim2 : ∀ x, sepPlus g s (u + 1) ≤ x → x < n →
        ∀ j, 0 ≤ j → j ≤ u + 1 → fP g x (u + 1) ≤ fP g x j := by
      intro x hwx hxn j hj0 hju
      rcases eq_or_lt_of_le hju with rfl | hju'
      · exact le_refl _
      · have hxt : t ≤ x := le_trans htw.le hwx
        have hx0 : 0 ≤ x := le_trans (by omega) hwx
        have hnotwin : fP g x (u + 1) < fP g x s :=
          lt_of_not_le fun hcon => absurd ((hwin_iff x).mpr hcon) (not_lt.mpr hwx)
        have hold := inv.dmin x hx0 hxn j hj0 (by omega)
        rcases select_append_mem x s t rest hxt pre with ⟨p, hp, hpx, hselst⟩ | hselst
        · rw [hsplitR, hselst] at hold
          exact le_of_lt (lt_of_lt_of_le (hpopdom p hp x hpx) hold)
        · rw [hsplitR, hselst] at hold
          exact le_of_lt (lt_of_lt_of_le hnotwin hold)
    rw [scanStep_of_popLoop_cons hR]
    by_cases hwn : sepPlus g s (u + 1) < n
    · rw [if_pos hwn]
      refine ⟨by simp, ?_, ?_, ?_, ?_, ?_⟩
      · obtain ⟨s0, h⟩ := hbottomR
        exact ⟨s0, by rw [List.getLast?_cons_cons]; exact h⟩
      · intro p hp
        rcases List.mem_cons.mp hp with rfl | hp'
        · exact ⟨by omega, le_refl _⟩
        · have := inv.mem_s p (hRsub p hp')
          exact ⟨this.1, by omega⟩
      · intro p hp
        rcases List.mem_cons.mp hp with rfl | hp'
        · exact ⟨by omega, hwn⟩
        · exact inv.mem_t p (hRsub p hp')
      · refine List.pairwise_cons.mpr ⟨?_, hpairR⟩
        intro p hp
        rcases List.mem_cons.mp hp with rfl | hp'
        · exact ⟨htw, by omega⟩
        · have h1 := (List.pairwise_cons.mp hpairR).1 p hp'
          have h2 := inv.mem_s p (hRsub p (List.mem_cons_of_mem _ hp'))
          exact ⟨by omega, by omega⟩
      · intro x hx0 hxn j hj0 hju
        rw [select_cons]
        by_cases hwx : sepPlus g s (u + 1) ≤ x
        · rw [if_pos hwx]
          exact claim2 x hwx hxn j hj0 hju
        · rw [if_neg hwx]
          exact claim1 x hx0 hxn (not_le.mp hwx) j hj0 hju
    · rw [if_neg hwn]
      refine ⟨by simp, hbottomR, ?_, ?_, hpairR, ?_⟩
      · intro p hp
        have := inv.mem_s p (hRsub p hp)
        exact ⟨this.1, by omega⟩
      · intro p hp
        exact inv.mem_t p (hRsub p hp)
      · intro x hx0 hxn j hj0 hju
        exact claim1 x hx0 hxn (by omega) j hj0 hju

/-- The invariant holds for the initial stack `q_index = 0`,
`s_array[0] = 0`, `t_array[0] = 0`. -/
theorem forwardScan_inv_zero (g : ℤ → ℤ) (n : ℤ) (hn : 1 ≤ n) :
    P2Inv g n 0 [(0, 0)] := by
  refine ⟨by simp, ⟨0, rfl⟩, ?_, ?_, by simp, ?_⟩
  · intro p hp
    have : p = ((0 : ℤ), (0 : ℤ)) := by simpa using hp
    rw [this]
    exact ⟨le_refl _, le_refl _⟩
  · intro p hp
    have : p = ((0 : ℤ), (0 : ℤ)) := by simpa using hp
    rw [this]
    exact ⟨le_refl _, by omega⟩
  · intro x hx0 hxn j hj0 hju
    have hj : j = 0 := le_antisymm hju hj0
    rw [hj, select_cons, if_pos hx0]

/-- The invariant holds after every prefix of the forward scan. -/
theorem forwardScan_inv (g : ℤ → ℤ) (n : ℤ) (hn : 1 ≤ n) :
    ∀ k : ℕ, (k : ℤ) < n → P2Inv g n (k : ℤ) (forwardScan g n k) := by
  intro k
  induction k with
  | zero =>
    intro _
    exact forwardScan_inv_zero g n hn
  | succ k ih =>
    intro hk
    have hk' : (k : ℤ) < n := by push_cast at hk ⊢; omega
    have hinv := ih hk'
    have hstep := scanStep_preserves g n (k : ℤ) (forwardScan g n k) hinv
      (Int.ofNat_nonneg k) (by push_cast at hk ⊢; omega)
    have hcast : ((k + 1 : ℕ) : ℤ) = (k : ℤ) + 1 := by push_cast; ring
    unfold forwardScan
    rw [hcast]
    exact hstep

/-- The backward pass reads off, for every `u`, the parabola that `select`
assigns to `u` on the final stack. -/
theorem backScan_spec (g : ℤ → ℤ) :
    ∀ (u : ℕ) (stk : List (ℤ × ℤ)) (sq tq : ℤ) (acc : List ℤ),
      ((sq, tq) :: stk).Pairwise (fun a b => b.2 < a.2 ∧ b.1 < a.1) →
      (∃ s0, ((sq, tq) :: stk).getLast? = some (s0, 0)) →
      tq ≤ (u : ℤ) →
      backScan g u stk sq tq acc
        = (List.range (u + 1)).map
            (fun (v : ℕ) => fP g (v : ℤ) (select ((sq, tq) :: stk) (v : ℤ))) ++ acc := by
  intro u
  induction u with
  | zero =>
    intro stk sq tq acc hpair hbot htq
    have htq0 : tq = 0 := by
      rcases stk with _ | ⟨hd2, rest2⟩
      · obtain ⟨s0, hlast⟩ := hbot
        have heq : (sq, tq) = (s0, 0) := by simpa using hlast
        exact (Prod.ext_iff.mp heq).2
      · obtain ⟨s0, hlast⟩ := hbot
        rw [List.getLast?_cons_cons] at hlast
        have hmem : (s0, (0 : ℤ)) ∈ hd2 :: rest2 :=
          List.mem_of_getLast?_eq_some hlast
        have := (List.pairwise_cons.mp hpair).1 (s0, 0) hmem
        omega
    have hsel : select ((sq, tq) :: stk) (0 : ℤ) = sq := by
      rw [select_cons, if_pos (by omega)]
    have hr1 : List.range 1 = [0] := by decide
    show (((0 : ℤ) - sq) ^ 2 + g sq ^ 2) :: acc = _
    simp [hsel, fP, hr1]
  | succ v ih =>
    intro stk sq tq acc hpair hbot htq
    have hsel_top : select ((sq, tq) :: stk) ((v + 1 : ℕ) : ℤ) = sq := by
      rw [select_cons, if_pos htq]
    have hrange : List.range (v + 1 + 1) = List.range (v + 1) ++ [v + 1] := by
      exact List.range_succ (v + 1)
    by_cases hc : ((v + 1 : ℕ) : ℤ) = tq
    · -- pop: the current segment starts exactly at u = v + 1
      rcases stk with _ | ⟨hd2, rest2⟩
      · -- the bottom has t = 0 > 0 = impossible since tq = v+1 ≥ 1
        exfalso
        obtain ⟨s0, hlast⟩ := hbot
        have heq : (sq, tq) = (s0, 0) := by simpa using hlast
        have : tq = 0 := (Prod.ext_iff.mp heq).2
        omega
      · obtain ⟨s', t'⟩ := hd2
        have hpair' : ((s', t') :: rest2).Pairwise (fun a b => b.2 < a.2 ∧ b.1 < a.1) :=
          (List.pairwise_cons.mp hpair).2
        have hbot' : ∃ s0, ((s', t') :: rest2).getLast? = some (s0, 0) := by
          obtain ⟨s0, hlast⟩ := hbot
          rw [List.getLast?_cons_cons] at hlast
          exact ⟨s0, hlast⟩
        have ht' : t' ≤ (v : ℤ) := by
          have := (List.pairwise_cons.mp hpair).1 (s', t') (List.mem_cons_self _ _)
          omega
        simp only [backScan]
        rw [if_pos hc]
        rw [ih rest2 s' t' _ hpair' hbot' ht']
        rw [hrange, List.map_append]
        have hmapeq : (List.range (v + 1)).map
              (fun (x : ℕ) => fP g (x : ℤ) (select ((s', t') :: rest2) (x : ℤ)))
            = (List.range (v + 1)).map
              (fun (x : ℕ) => fP g (x : ℤ) (select ((sq, tq) :: (s', t') :: rest2) (x : ℤ))) := by
          apply List.map_congr_left
          intro x hx
          have hxlt : x < v + 1 := List.mem_range.mp hx
          have hxtq : ¬ tq ≤ (x : ℤ) := by
            rw [← hc]
            push_cast
            omega
          rw [select_cons ((sq : ℤ)) tq, if_neg hxtq]
        rw [hmapeq]
        simp only [List.map_cons, List.map_nil, List.append_assoc, List.cons_append,
          List.nil_append]
        congr 1
        rw [hsel_top, fP]
    · -- no pop: the segment continues below u = v + 1
      have htq' : tq ≤ (v : ℤ) := by
        push_cast at hc htq ⊢
        omega
      simp only [backScan]
      rw [if_neg hc]
      rw [ih stk sq tq _ hpair hbot htq']
      rw [hrange, List.map_append]
      simp only [List.map_cons, List.map_nil, List.append_assoc, List.cons_append,
        List.nil_append]
      congr 1
      rw [hsel_top, fP]

/-- The two lower bounds packaged for the brute-force reference value. -/
theorem bruteMinSq_le (g : ℤ → ℤ) (n : ℕ) (u : ℤ) (j : ℕ) (hj : j < n) :
    bruteMinSq g n u ≤ fP g u (j : ℤ) := by
  unfold bruteMinSq
  rw [dif_neg (by omega)]
  exact Finset.inf'_le _ (Finset.mem_range.mpr hj)

theorem le_bruteMinSq (g : ℤ → ℤ) (n : ℕ) (u : ℤ) (hn : n ≠ 0) (c : ℤ)
    (h : ∀ j : ℕ, j < n → c ≤ fP g u (j : ℤ)) : c ≤ bruteMinSq g n u := by
  unfold bruteMinSq
  rw [dif_neg hn]
  exact Finset.le_inf' _ _ fun j hj => h j (Finset.mem_range.mp hj)

/-- Phase 2 computes exactly the brute-force minimum
`min_{0 ≤ j < n} (u - j)² + g(j)²` at every column `u`, for one row of any
integer contents `g`. -/
theorem phase2Row_getD (g : ℤ → ℤ) (n : ℕ) (hn : 1 ≤ n) :
    (phase2Row g n).length = n ∧
    ∀ u : ℕ, u < n → (phase2Row g n).getD u 0 = bruteMinSq g n (u : ℤ) := by
  have hinv := forwardScan_inv g (n : ℤ) (by exact_mod_cast hn) (n - 1)
    (by push_cast; omega)
  cases hfs : forwardScan g (n : ℤ) (n - 1) with
  | nil =>
    rw [hfs] at hinv
    exact absurd rfl hinv.ne
  | cons hd rest =>
    obtain ⟨s, t⟩ := hd
    rw [hfs] at hinv
    have hts : t ≤ ((n - 1 : ℕ) : ℤ) := by
      have := (hinv.mem_t (s, t) (List.mem_cons_self _ _)).2
      push_cast
      omega
    have hback := backScan_spec g (n - 1) rest s t [] hinv.pairwise hinv.bottom hts
    have hrow : phase2Row g n
        = (List.range (n - 1 + 1)).map
            (fun (v : ℕ) => fP g (v : ℤ) (select ((s, t) :: rest) (v : ℤ))) := by
      unfold phase2Row
      rw [hfs]
      show backScan g (n - 1) rest s t [] = _
      rw [hback, List.append_nil]
    have hn1 : n - 1 + 1 = n := by omega
    rw [hn1] at hrow
    constructor
    · rw [hrow, List.length_map, List.length_range]
    · intro u hu
      have hgd : (phase2Row g n).getD u 0
          = fP g (u : ℤ) (select ((s, t) :: rest) (u : ℤ)) := by
        rw [hrow]
        rw [List.getD_eq_getElem _ _ (by
          rw [List.length_map, List.length_range]; exact hu)]
        rw [List.getElem_map, List.getElem_range]
      rw [hgd]
      apply le_antisymm
      · apply le_bruteMinSq g n _ (by omega)
        intro j hj
        have hju : (j : ℤ) ≤ ((n - 1 : ℕ) : ℤ) := by push_cast; omega
        exact hinv.dmin (u : ℤ) (Int.ofNat_nonneg u) (by push_cast; omega)
          (j : ℤ) (Int.ofNat_nonneg j) hju
      · obtain ⟨p, hp, hsel, -⟩ := select_mem (u : ℤ) (Int.ofNat_nonneg u)
          ((s, t) :: rest) hinv.bottom
        obtain ⟨hp0, hpn⟩ := hinv.mem_s p hp
        have hlt : p.1.toNat < n := by
          have : p.1 ≤ ((n - 1 : ℕ) : ℤ) := hpn
          push_cast at this
          omega
        have hcast : ((p.1.toNat : ℕ) : ℤ) = p.1 := Int.toNat_of_nonneg hp0
        rw [hsel, ← hcast]
        exact bruteMinSq_le g n (u : ℤ) p.1.toNat hlt

/-! ### Claim theorem for phase 2 (C4) -/

/-- C4: for any row contents `g`, the two-stack lower-envelope forward pass
followed by the backward assignment sweep computes, at every column `u`,
exactly `min_{0 ≤ j < width} (u - j)² + g(j)²` — the exact squared 2-D
Euclidean distance transform of the row. -/
theorem phase2_lower_envelope_exact (g : ℤ → ℤ) (n : ℕ) (hn : 1 ≤ n)
    (u : ℕ) (hu : u < n) :
    (phase2Row g n).getD u 0 = bruteMinSq g n (u : ℤ) :=
  (phase2Row_getD g n hn).2 u hu

/-- Witness for C4 on a concrete row: `g = [0, 3, 1]`, `n = 3`, `u = 1`. -/
theorem phase2_lower_envelope_exact_witness :
    (phase2Row (fun j => if j = 0 then 0 else if j = 1 then 3 else 1) 3).getD 1 0
      = bruteMinSq (fun j => if j = 0 then 0 else if j = 1 then 3 else 1) 3 1 :=
  phase2_lower_envelope_exact _ 3 (by decide) 1 (by decide)

/-! ## The composed distance transform (`distance_transform_edt`)

The whole pipeline: `MaskWrapper` builds the mask raster; phase 1 writes
the column-distance raster `G`; phase 2 turns each row of `G` into squared
distances; finally `dt[valid] = sqrt(dt)` with `valid = (g_block != NODATA)`
and `dt[~valid] = NODATA`.
-/

/-- The intermediate raster `G` produced by phase 1, read by phase 2 at row
`r`, as a function of the (integer) column index. -/
def gRaster (mask : ℕ → ℕ → ℤ) (W H : ℕ) (r : ℕ) : ℤ → ℤ :=
  fun j => phase1 (fun i => mask i j.toNat) ((W : ℤ) + (H : ℤ)) H r

/-- The squared distance the two phases compute at pixel `(r, c)`. -/
def edtSq (mask : ℕ → ℕ → ℤ) (W H : ℕ) (r c : ℕ) : ℤ :=
  (phase2Row (gRaster mask W H r) W).getD c 0

/-- The value written to the target raster at `(r, c)`:
`sqrt(dt)` where `g_block != NODATA`, else `NODATA`. -/
noncomputable def edtOut (mask : ℕ → ℕ → ℤ) (W H : ℕ) (r c : ℕ) : ℝ :=
  if gRaster mask W H r (c : ℤ) ≠ NODATA
  then Real.sqrt ((edtSq mask W H r c : ℤ) : ℝ)
  else ((NODATA : ℤ) : ℝ)

/-- The full `distance_transform_edt` pipeline on a source band with nodata
value `srcNodata`: mask construction via `MaskWrapper`, then both phases. -/
noncomputable def distance_transform_edt (src : ℕ → ℕ → ℤ) (srcNodata : ℤ)
    (W H : ℕ) (r c : ℕ) : ℝ :=
  edtOut (fun i j => maskWrapper srcNodata (src i j)) W H r c

/-- The pixels of a raster holding a given value, e.g. foreground (`1`) or
background (`0`). -/
def valuePixels (mask : ℕ → ℕ → ℤ) (W H : ℕ) (v : ℤ) : Finset (ℕ × ℕ) :=
  ((Finset.range H) ×ˢ (Finset.range W)).filter fun p => mask p.1 p.2 = v

/-- Brute-force squared Euclidean distance from `(r, c)` to the nearest
pixel of a set (`0` if the set is empty, never used in that case). -/
def brutePixSq (s : Finset (ℕ × ℕ)) (r c : ℕ) : ℤ :=
  if h : s.Nonempty then
    s.inf' h (fun p => ((r : ℤ) - (p.1 : ℤ)) ^ 2 + ((c : ℤ) - (p.2 : ℤ)) ^ 2)
  else 0

/-! ### Lemmas for the composition -/

theorem phase1Forward_le_inf_add (m : ℕ → ℤ) (inf : ℤ) (hinf : 0 ≤ inf) :
    ∀ r, phase1Forward m inf r ≤ inf + (r : ℤ) := by
  intro r
  induction r with
  | zero =>
    unfold phase1Forward
    split <;> simp <;> omega
  | succ r ih =>
    unfold phase1Forward
    split
    · push_cast; omega
    · push_cast at ih ⊢; omega

theorem phase1_le_inf_add (m : ℕ → ℤ) (inf : ℤ) (hinf : 0 ≤ inf) (H : ℕ)
    (hH : 1 ≤ H) (r : ℕ) :
    phase1 m inf H r ≤ inf + ((H : ℤ) - 1) := by
  unfold phase1
  have hgen : ∀ k, k ≤ H - 1 → phase1Back m inf H k ≤ inf + ((H : ℤ) - 1) := by
    intro k
    induction k with
    | zero =>
      intro _
      unfold phase1Back
      have := phase1Forward_le_inf_add m inf hinf (H - 1)
      have hc : ((H - 1 : ℕ) : ℤ) = (H : ℤ) - 1 := by push_cast; omega
      omega
    | succ k ih =>
      intro hk
      unfold phase1Back
      have hhere := phase1Forward_le_inf_add m inf hinf (H - 1 - (k + 1))
      have hc : ((H - 1 - (k + 1) : ℕ) : ℤ) ≤ (H : ℤ) - 1 := by push_cast; omega
      dsimp only
      split
      · have := ih (by omega)
        omega
      · omega
  rcases le_or_lt (H - 1 - r) (H - 1) with h | h
  · exact hgen _ h
  · omega

/-- Bounds on the intermediate raster `G`: always in `[0, W + 2H - 1]`,
whatever the mask contents. -/
theorem gRaster_bounds (mask : ℕ → ℕ → ℤ) (W H : ℕ) (hW : 1 ≤ W) (hH : 1 ≤ H)
    (r : ℕ) (j : ℤ) :
    0 ≤ gRaster mask W H r j ∧
    gRaster mask W H r j ≤ (W : ℤ) + 2 * (H : ℤ) - 1 := by
  unfold gRaster
  constructor
  · exact phase1_nonneg _ _ (by positivity) _ _
  · have := phase1_le_inf_add (fun i => mask i j.toNat) ((W : ℤ) + (H : ℤ))
      (by positivity) H hH r
    omega

set_option maxHeartbeats 1000000 in
/-- The central composition result (amended form of C1): on a binary mask
with at least one foreground pixel, the two-phase transform computes, at
every pixel, the exact squared Euclidean distance to the nearest
foreground (`mask == 1`) pixel. -/
theorem edtSq_exact (mask : ℕ → ℕ → ℤ) (W H : ℕ) (hW : 1 ≤ W) (hH : 1 ≤ H)
    (hbin : ∀ i j, i < H → j < W → mask i j = 0 ∨ mask i j = 1)
    (hfg : (valuePixels mask W H 1).Nonempty)
    (r c : ℕ) (hr : r < H) (hc : c < W) :
    edtSq mask W H r c = brutePixSq (valuePixels mask W H 1) r c := by
  have hWz : (1 : ℤ) ≤ (W : ℤ) := by exact_mod_cast hW
  have hHz : (1 : ℤ) ≤ (H : ℤ) := by exact_mod_cast hH
  set g : ℤ → ℤ := gRaster mask W H r with hgdef
  have hedt : edtSq mask W H r c = bruteMinSq g W (c : ℤ) :=
    (phase2Row_getD g W hW).2 c hc
  -- phase-1 exactness per column, packaged
  have hcol : ∀ j : ℕ, j < W →
      (∀ i, i < H → mask i j = 1 → g (j : ℤ) ≤ |(r : ℤ) - (i : ℤ)|) ∧
      ((∃ i, i < H ∧ mask i j = 1 ∧ g (j : ℤ) = |(r : ℤ) - (i : ℤ)|) ∨
        g (j : ℤ) = (W : ℤ) + (H : ℤ) + (r : ℤ)) := by
    intro j hj
    have hbinj : ∀ i, i < H → mask i j = 0 ∨ mask i j = 1 := fun i hi => hbin i j hi hj
    have hinf : (H : ℤ) ≤ (W : ℤ) + (H : ℤ) := by omega
    have hk : H - 1 - r ≤ H - 1 := by omega
    have hrr : H - 1 - (H - 1 - r) = r := by omega
    have hjt : ((j : ℤ)).toNat = j := by simp
    have hspec := phase1Back_spec (fun i => mask i j) ((W : ℤ) + (H : ℤ)) H hH
      hbinj hinf (H - 1 - r) hk
    rw [hrr] at hspec
    have hgj : g (j : ℤ) = phase1Back (fun i => mask i j) ((W : ℤ) + (H : ℤ)) H (H - 1 - r) := by
      rw [hgdef]
      unfold gRaster phase1
      rw [hjt]
    refine ⟨?_, ?_⟩
    · intro i hi hfg1
      rw [hgj]
      exact hspec.1 i hi hfg1
    · rcases hspec.2 with ⟨i, hi, hfg1, hval⟩ | hval
      · exact Or.inl ⟨i, hi, hfg1, by rw [hgj, hval]⟩
      · exact Or.inr (by rw [hgj, hval])
  -- upper bound: no farther than any foreground pixel
  have hA : ∀ p ∈ valuePixels mask W H 1,
      edtSq mask W H r c ≤ ((r : ℤ) - (p.1 : ℤ)) ^ 2 + ((c : ℤ) - (p.2 : ℤ)) ^ 2 := by
    intro p hp
    obtain ⟨hmemrange, hfgp⟩ := Finset.mem_filter.mp hp
    obtain ⟨hp1, hp2⟩ := Finset.mem_product.mp hmemrange
    have hi : p.1 < H := Finset.mem_range.mp hp1
    have hj : p.2 < W := Finset.mem_range.mp hp2
    have hg0 : 0 ≤ g (p.2 : ℤ) := (gRaster_bounds mask W H hW hH r _).1
    have hgle : g (p.2 : ℤ) ≤ |(r : ℤ) - (p.1 : ℤ)| := (hcol p.2 hj).1 p.1 hi hfgp
    have hsq : g (p.2 : ℤ) ^ 2 ≤ ((r : ℤ) - (p.1 : ℤ)) ^ 2 := by
      have habs : |(r : ℤ) - (p.1 : ℤ)| ^ 2 = ((r : ℤ) - (p.1 : ℤ)) ^ 2 := sq_abs _
      nlinarith [abs_nonneg ((r : ℤ) - (p.1 : ℤ))]
    have hble := bruteMinSq_le g W (c : ℤ) p.2 hj
    rw [hedt]
    calc bruteMinSq g W (c : ℤ) ≤ fP g (c : ℤ) (p.2 : ℤ) := hble
    _ = ((c : ℤ) - (p.2 : ℤ)) ^ 2 + g (p.2 : ℤ) ^ 2 := rfl
    _ ≤ ((r : ℤ) - (p.1 : ℤ)) ^ 2 + ((c : ℤ) - (p.2 : ℤ)) ^ 2 := by nlinarith
  -- attainment: the computed value is realized at some foreground pixel
  have hB : ∃ p ∈ valuePixels mask W H 1,
      edtSq mask W H r c = ((r : ℤ) - (p.1 : ℤ)) ^ 2 + ((c : ℤ) - (p.2 : ℤ)) ^ 2 := by
    have hbne : W ≠ 0 := by omega
    unfold bruteMinSq at hedt
    rw [dif_neg hbne] at hedt
    obtain ⟨j0, hj0mem, hj0val⟩ := Finset.exists_mem_eq_inf'
      (Finset.nonempty_range_iff.mpr hbne) (fun j : ℕ => fP g (c : ℤ) (j : ℤ))
    have hj0 : j0 < W := Finset.mem_range.mp hj0mem
    have hval : edtSq mask W H r c = fP g (c : ℤ) (j0 : ℤ) := by
      rw [hedt, hj0val]
    rcases (hcol j0 hj0).2 with ⟨i0, hi0, hfg0, hgval⟩ | hgval
    · refine ⟨(i0, j0), ?_, ?_⟩
      · exact Finset.mem_filter.mpr
          ⟨Finset.mem_product.mpr ⟨Finset.mem_range.mpr hi0, Finset.mem_range.mpr hj0⟩, hfg0⟩
      · rw [hval]
        show ((c : ℤ) - (j0 : ℤ)) ^ 2 + g (j0 : ℤ) ^ 2 = _
        rw [hgval, sq_abs]
        ring
    · -- the winning column would carry the overflow value: impossible
      exfalso
      obtain ⟨p1, hp1⟩ := hfg
      have hup := hA p1 hp1
      obtain ⟨hmemrange, -⟩ := Finset.mem_filter.mp hp1
      obtain ⟨hq1, hq2⟩ := Finset.mem_product.mp hmemrange
      have hi1 : (p1.1 : ℤ) < (H : ℤ) := by exact_mod_cast Finset.mem_range.mp hq1
      have hj1 : (p1.2 : ℤ) < (W : ℤ) := by exact_mod_cast Finset.mem_range.mp hq2
      have hi10 : (0 : ℤ) ≤ (p1.1 : ℤ) := Int.ofNat_nonneg _
      have hj10 : (0 : ℤ) ≤ (p1.2 : ℤ) := Int.ofNat_nonneg _
      have hrz : (r : ℤ) < (H : ℤ) := by exact_mod_cast hr
      have hcz : (c : ℤ) < (W : ℤ) := by exact_mod_cast hc
      have hrz0 : (0 : ℤ) ≤ (r : ℤ) := Int.ofNat_nonneg _
      have hcz0 : (0 : ℤ) ≤ (c : ℤ) := Int.ofNat_nonneg _
      have hlarge : ((W : ℤ) + (H : ℤ)) ^ 2 ≤ g (j0 : ℤ) ^ 2 := by
        have h1 : (W : ℤ) + (H : ℤ) ≤ g (j0 : ℤ) := by rw [hgval]; omega
        nlinarith
      have hsmall : ((r : ℤ) - (p1.1 : ℤ)) ^ 2 + ((c : ℤ) - (p1.2 : ℤ)) ^ 2
          < ((W : ℤ) + (H : ℤ)) ^ 2 := by nlinarith
      have : edtSq mask W H r c = ((c : ℤ) - (j0 : ℤ)) ^ 2 + g (j0 : ℤ) ^ 2 := hval
      nlinarith [sq_nonneg ((c : ℤ) - (j0 : ℤ))]
  -- both bounds pin the value to the brute-force minimum
  obtain ⟨p0, hp0, hp0val⟩ := hB
  unfold brutePixSq
  rw [dif_pos hfg]
  apply le_antisymm
  · exact Finset.le_inf' _ _ fun p hp => hA p hp
  · rw [hp0val]
    exact Finset.inf'_le _ hp0

theorem maskWrapper_binary (nd x : ℤ) (hx : x = 0 ∨ x = 1)
    (hnd0 : nd ≠ 0) (hnd1 : nd ≠ 1) : maskWrapper nd x = x := by
  unfold maskWrapper
  rcases hx with rfl | rfl
  · rw [if_neg (fun h => hnd0 h.symm), if_neg (by simp)]
  · rw [if_neg (fun h => hnd1 h.symm), if_pos (by decide)]

/-! ### Claim theorems for the composed transform (C1, C2, C9) -/

/-- C1 (amended): on a binary source raster (no nodata cells present) with
at least one foreground (nonzero) pixel, `distance_transform_edt` writes at
every pixel the exact Euclidean distance to the nearest **foreground**
(`mask == 1`) pixel — the brute-force minimum over all foreground pixels.
(The claim as frozen says "distance to the nearest background pixel";
`distance_transform_edt_background_false` refutes that reading.) -/
theorem distance_transform_edt_exact (src : ℕ → ℕ → ℤ) (srcNodata : ℤ)
    (W H : ℕ) (hW : 1 ≤ W) (hH : 1 ≤ H)
    (hbin : ∀ i j, i < H → j < W → src i j = 0 ∨ src i j = 1)
    (hnd0 : srcNodata ≠ 0) (hnd1 : srcNodata ≠ 1)
    (hfg : (valuePixels src W H 1).Nonempty)
    (r c : ℕ) (hr : r < H) (hc : c < W) :
    distance_transform_edt src srcNodata W H r c
      = Real.sqrt ((brutePixSq (valuePixels src W H 1) r c : ℤ) : ℝ) := by
  set m : ℕ → ℕ → ℤ := fun i j => maskWrapper srcNodata (src i j) with hm
  have hmeq : ∀ i j, i < H → j < W → m i j = src i j := by
    intro i j hi hj
    exact maskWrapper_binary srcNodata (src i j) (hbin i j hi hj) hnd0 hnd1
  have hmbin : ∀ i j, i < H → j < W → m i j = 0 ∨ m i j = 1 := by
    intro i j hi hj
    rw [hmeq i j hi hj]
    exact hbin i j hi hj
  have hvp : valuePixels m W H 1 = valuePixels src W H 1 := by
    unfold valuePixels
    apply Finset.filter_congr
    intro p hp
    obtain ⟨hp1, hp2⟩ := Finset.mem_product.mp hp
    rw [hmeq p.1 p.2 (Finset.mem_range.mp hp1) (Finset.mem_range.mp hp2)]
  have hfg' : (valuePixels m W H 1).Nonempty := by rw [hvp]; exact hfg
  have hsq := edtSq_exact m W H hW hH hmbin hfg' r c hr hc
  unfold distance_transform_edt edtOut
  rw [if_pos ?_]
  · rw [← hm, hsq, hvp]
  · have h0 := (gRaster_bounds m W H hW hH r (c : ℤ)).1
    rw [← hm]
    unfold NODATA
    omega

/-- Witness for C1 (amended) at the concrete 1×2 mask `[1, 0]`. -/
theorem distance_transform_edt_exact_witness :
    distance_transform_edt (fun i j => if i = 0 ∧ j = 0 then 1 else 0) (-1) 2 1 0 0
      = Real.sqrt ((brutePixSq
          (valuePixels (fun i j => if i = 0 ∧ j = 0 then 1 else 0) 2 1 1) 0 0 : ℤ) : ℝ) :=
  distance_transform_edt_exact (fun i j => if i = 0 ∧ j = 0 then 1 else 0) (-1) 2 1
    (by decide) (by decide)
    (by intro i j hi hj; interval_cases i <;> interval_cases j <;> simp)
    (by decide) (by decide)
    ⟨(0, 0), by decide⟩ 0 0 (by decide) (by decide)

/-- Counterexample to C1 as frozen: on the 1×2 binary mask `[1, 0]`, the
output at the foreground pixel `(0,0)` is `0`, while the true minimum
Euclidean distance to the nearest **background** pixel is `1`. -/
theorem distance_transform_edt_background_false :
    distance_transform_edt (fun i j => if i = 0 ∧ j = 0 then 1 else 0) (-1) 2 1 0 0 = 0 ∧
    Real.sqrt ((brutePixSq
      (valuePixels (fun i j => if i = 0 ∧ j = 0 then 1 else 0) 2 1 0) 0 0 : ℤ) : ℝ) = 1 ∧
    (0 : ℝ) ≠ 1 := by
  refine ⟨?_, ?_, by norm_num⟩
  · unfold distance_transform_edt edtOut
    rw [if_pos (by decide)]
    have h2 : edtSq (fun i j => maskWrapper (-1)
        ((fun i j => if i = 0 ∧ j = 0 then (1 : ℤ) else 0) i j)) 2 1 0 0 = 0 := by decide
    rw [h2]
    simp
  · have h3 : brutePixSq
        (valuePixels (fun i j => if i = 0 ∧ j = 0 then (1 : ℤ) else 0) 2 1 0) 0 0 = 1 := by
      decide
    rw [h3]
    simp

/-- C2 is violated by the code: on a 1×1 raster whose only pixel is nodata,
the mask holds the `NODATA` sentinel, yet phase 1 writes `G = 0` (the
nodata cell is treated as foreground at row 0, not excluded), and the final
output is the distance `0.0`, not the output nodata value. -/
theorem nodata_not_propagated :
    maskWrapper 7 7 = NODATA ∧
    gRaster (fun _ _ => maskWrapper 7 7) 1 1 0 0 = 0 ∧
    distance_transform_edt (fun _ _ => 7) 7 1 1 0 0 = 0 ∧
    distance_transform_edt (fun _ _ => 7) 7 1 1 0 0 ≠ ((NODATA : ℤ) : ℝ) := by
  have h1 : distance_transform_edt (fun _ _ => (7 : ℤ)) 7 1 1 0 0 = 0 := by
    unfold distance_transform_edt edtOut
    rw [if_pos (by decide)]
    have h2 : edtSq (fun i j => maskWrapper 7 ((fun _ _ => (7 : ℤ)) i j)) 1 1 0 0 = 0 := by
      decide
    rw [h2]
    simp
  refine ⟨by decide, by decide, h1, ?_⟩
  rw [h1]
  unfold NODATA
  norm_num

/-- Counterexample to C9 as frozen: the intermediate `G` value of a
foreground-free column reaches `W + 2H - 1`; already for a 1×23171 raster
its square exceeds both `2³¹ - 1` (so the `cdef int` squaring overflows)
and the claimed sufficient capacity `(width + height)²`. -/
theorem int32_overflow_at_large_raster :
    phase1 (fun _ => 0) ((1 : ℤ) + 23171) 23171 23170 = 46342 ∧
    ¬ (phase1 (fun _ => 0) ((1 : ℤ) + 23171) 23171 23170 ^ 2 ≤ 2 ^ 31 - 1) ∧
    ¬ (phase1 (fun _ => 0) ((1 : ℤ) + 23171) 23171 23170 ^ 2 ≤ ((1 : ℤ) + 23171) ^ 2) := by
  have hval : phase1 (fun _ => 0) ((1 : ℤ) + 23171) 23171 23170 = 46342 := by
    have hspec := phase1Back_spec (fun _ => (0 : ℤ)) ((1 : ℤ) + 23171) 23171
      (by norm_num) (fun i _ => Or.inl rfl) (by norm_num) 0 (by norm_num)
    rcases hspec.2 with ⟨i, hi, hfg1, -⟩ | hv
    · exact absurd hfg1 (by norm_num)
    · unfold phase1
      have h0 : (23171 - 1 - 23170 : ℕ) = 0 := by norm_num
      rw [h0, hv]
      norm_num
  refine ⟨hval, ?_, ?_⟩
  · rw [hval]; norm_num
  · rw [hval]; norm_num

/-- C9 (amended): the `G` values can reach `W + 2H - 1` (not just `W + H`),
so 32-bit arithmetic is safe exactly when `(W-1)² + (W+2H-1)²` fits; under
that bound all stack coordinates stay in `[0, W)` and every phase-2
squaring, comparison operand and intersection numerator has absolute value
at most `2³¹ - 1`. -/
theorem int32_sufficient_bound (W H : ℕ) (hW : 1 ≤ W) (hH : 1 ≤ H)
    (mask : ℕ → ℕ → ℤ) (r : ℕ)
    (hbound : ((W : ℤ) - 1) ^ 2 + ((W : ℤ) + 2 * (H : ℤ) - 1) ^ 2 ≤ 2 ^ 31 - 1) :
    (∀ j : ℤ, 0 ≤ gRaster mask W H r j ∧
       gRaster mask W H r j ^ 2 ≤ 2 ^ 31 - 1) ∧
    (∀ k : ℕ, (k : ℤ) < (W : ℤ) →
       ∀ p ∈ forwardScan (gRaster mask W H r) (W : ℤ) k,
         0 ≤ p.1 ∧ p.1 < (W : ℤ) ∧ 0 ≤ p.2 ∧ p.2 < (W : ℤ)) ∧
    (∀ u s t : ℤ, 0 ≤ u → u < (W : ℤ) → 0 ≤ s → s < (W : ℤ) →
       0 ≤ t → t < (W : ℤ) →
       |u ^ 2 - s ^ 2 + gRaster mask W H r u ^ 2 - gRaster mask W H r s ^ 2|
         ≤ 2 ^ 31 - 1 ∧
       |(t - s) ^ 2 + gRaster mask W H r s ^ 2| ≤ 2 ^ 31 - 1 ∧
       |(t - u) ^ 2 + gRaster mask W H r u ^ 2| ≤ 2 ^ 31 - 1) := by
  have hWz : (1 : ℤ) ≤ (W : ℤ) := by exact_mod_cast hW
  have hHz : (1 : ℤ) ≤ (H : ℤ) := by exact_mod_cast hH
  have hg : ∀ j : ℤ, 0 ≤ gRaster mask W H r j ∧
      gRaster mask W H r j ≤ (W : ℤ) + 2 * (H : ℤ) - 1 :=
    fun j => gRaster_bounds mask W H hW hH r j
  refine ⟨?_, ?_, ?_⟩
  · intro j
    obtain ⟨h0, h1⟩ := hg j
    exact ⟨h0, by nlinarith⟩
  · intro k hk p hp
    have hinv := forwardScan_inv (gRaster mask W H r) (W : ℤ) (by omega) k hk
    obtain ⟨hs0, hs1⟩ := hinv.mem_s p hp
    obtain ⟨ht0, ht1⟩ := hinv.mem_t p hp
    exact ⟨hs0, by omega, ht0, ht1⟩
  · intro u s t hu0 hu1 hs0 hs1 ht0 ht1
    obtain ⟨hgu0, hgu1⟩ := hg u
    obtain ⟨hgs0, hgs1⟩ := hg s
    refine ⟨abs_le.mpr ⟨by nlinarith, by nlinarith⟩,
            abs_le.mpr ⟨by nlinarith, by nlinarith⟩,
            abs_le.mpr ⟨by nlinarith, by nlinarith⟩⟩

/-- Witness for C9 (amended) at a 1×1 raster. -/
theorem int32_sufficient_bound_witness :
    0 ≤ gRaster (fun _ _ => 0) 1 1 0 0 ∧
    gRaster (fun _ _ => 0) 1 1 0 0 ^ 2 ≤ 2 ^ 31 - 1 :=
  (int32_sufficient_bound 1 1 (by decide) (by decide) (fun _ _ => 0) 0
    (by norm_num)).1 0

/-! ## Slope estimator (`calculate_slope`)

Per-cell computation on the 3×3 neighborhood
```
a b c
d e f
g h i
```
with `dem_nodata` comparisons, two accumulator/denominator pairs, and the
final `100 * sqrt(dzdx² + dzdy²)` guarded by `dzdx != slope_nodata`.
Floating-point `double` arithmetic is modelled in `ℝ` (so `2**0.5` is
`Real.sqrt 2`); the `cdef int` denominator factors are `ℤ`.
-/

/-- The value `numpy.finfo(numpy.float32).min = -(2 - 2⁻²³)·2¹²⁷ = -(2¹²⁸ - 2¹⁰⁴)`,
the slope-nodata sentinel. -/
noncomputable def slope_nodata : ℝ := -(2 ^ 128 - 2 ^ 104)

/-- One of the four outer-pair accumulation blocks of `calculate_slope`
(`a-c`, `g-i`, `a-g`, `c-i` directions): `(p, q)` are the diagonal pair,
`pmid` the inline middle neighbor, `e` the center.  Returns the numerator
contribution and the denominator-factor contribution. -/
noncomputable def outerPair (nd p pmid q e : ℝ) : ℝ × ℤ :=
  if p ≠ nd ∧ q ≠ nd then (p - q, 2)
  else if p ≠ nd ∧ pmid ≠ nd then (p - pmid, 1)
  else if pmid ≠ nd ∧ q ≠ nd then (pmid - q, 1)
  else if p ≠ nd then ((p - e) * Real.sqrt 2, 1)
  else if q ≠ nd then ((e - q) * Real.sqrt 2, 1)
  else (0, 0)

/-- One of the two middle-pair accumulation blocks of `calculate_slope`
(`d-f`, `b-h` directions). -/
noncomputable def middlePair (nd p q e : ℝ) : ℝ × ℤ :=
  if p ≠ nd ∧ q ≠ nd then (2 * (p - q), 4)
  else if p ≠ nd then (2 * (p - e), 2)
  else if q ≠ nd then (2 * (e - q), 2)
  else (0, 0)

/-- The slope value `calculate_slope` writes for one cell, given its 3×3
neighborhood, the elevation nodata value and the cell sizes.  A nodata
center short-circuits to `slope_nodata` (the code stores it in
`dzdx_array` as a guard and skips the cell); otherwise the six direction
blocks accumulate, each derivative is `acc / (denom * cell_size)` or `0`
when its denominator factor is zero, and the output is
`100 * sqrt(dzdx² + dzdy²)` unless the `dzdx != slope_nodata` guard fails. -/
noncomputable def calculate_slope_cell
    (nd x_cell y_cell a b c d e f g h i : ℝ) : ℝ :=
  if e = nd then slope_nodata
  else
    let pac := outerPair nd a b c e
    let pdf := middlePair nd d f e
    let pgi := outerPair nd g h i e
    let dzdx_acc := pac.1 + pdf.1 + pgi.1
    let x_denom := pac.2 + pdf.2 + pgi.2
    let pag := outerPair nd a d g e
    let pbh := middlePair nd b h e
    let pci := outerPair nd c f i e
    let dzdy_acc := pag.1 + pbh.1 + pci.1
    let y_denom := pag.2 + pbh.2 + pci.2
    let dzdx := if x_denom ≠ 0 then dzdx_acc / ((x_denom : ℝ) * x_cell) else 0
    let dzdy := if y_denom ≠ 0 then dzdy_acc / ((y_denom : ℝ) * y_cell) else 0
    if dzdx = slope_nodata then slope_nodata
    else 100 * Real.sqrt (dzdx ^ 2 + dzdy ^ 2)

/-- The outer-pair rule exactly as the claim states it (modelled from the
spec's words): both valid → `w_full/2·(p-q)` and `w_full = 2`; else only
`p` valid → `w_half·(p-e)·√2` with `w_half = 1`; else only `q` valid →
the same with the sign flipped; else nothing.  (No middle-neighbor
fallback.) -/
noncomputable def specOuterPairC5 (nd p q e : ℝ) : ℝ × ℤ :=
  if p ≠ nd ∧ q ≠ nd then ((2 : ℝ) / 2 * (p - q), 2)
  else if p ≠ nd then (1 * ((p - e) * Real.sqrt 2), 1)
  else if q ≠ nd then (1 * ((e - q) * Real.sqrt 2), 1)
  else (0, 0)

/-- The outer-pair rule as amended: between the both-valid case and the
one-sided `√2` cases, the code first tries the inline middle neighbor
(`w_half·(p-mid)` resp. `w_half·(mid-q)`). -/
noncomputable def specOuterPairAmended (nd p pmid q e : ℝ) : ℝ × ℤ :=
  if p ≠ nd ∧ q ≠ nd then ((2 : ℝ) / 2 * (p - q), 2)
  else if p ≠ nd ∧ pmid ≠ nd then (1 * (p - pmid), 1)
  else if pmid ≠ nd ∧ q ≠ nd then (1 * (pmid - q), 1)
  else if p ≠ nd then (1 * ((p - e) * Real.sqrt 2), 1)
  else if q ≠ nd then (1 * ((e - q) * Real.sqrt 2), 1)
  else (0, 0)

/-! ### Claim theorems for the slope estimator (C5, C6) -/

/-- Counterexample to C5 as frozen: with `p = 3` valid, middle `b = 1`
valid, `q` nodata and center `e = 0`, the code accumulates the one-sided
middle difference `p - b = 2` with weight 1, not `w_half·(p-e)·√2 = 3√2`
as the claim prescribes for "only p valid among the pair". -/
theorem slope_outer_pair_spec_false :
    outerPair (-1) 3 1 (-1) 0 = (2, 1) ∧
    specOuterPairC5 (-1) 3 (-1) 0 = (3 * Real.sqrt 2, 1) ∧
    outerPair (-1) 3 1 (-1) 0 ≠ specOuterPairC5 (-1) 3 (-1) 0 := by
  have hcode : outerPair (-1 : ℝ) 3 1 (-1) 0 = (2, 1) := by
    unfold outerPair
    rw [if_neg (by norm_num), if_pos (by norm_num)]
    norm_num
  have hspec : specOuterPairC5 (-1 : ℝ) 3 (-1) 0 = (3 * Real.sqrt 2, 1) := by
    unfold specOuterPairC5
    rw [if_neg (by norm_num), if_pos (by norm_num)]
    rw [Prod.mk.injEq]
    constructor
    · ring
    · rfl
  refine ⟨hcode, hspec, ?_⟩
  rw [hcode, hspec]
  intro hcontra
  have h1 : (2 : ℝ) = 3 * Real.sqrt 2 := (Prod.mk.injEq .. ▸ hcontra : _ ∧ _).1
  have h2 : Real.sqrt 2 ^ 2 = 2 := Real.sq_sqrt (by norm_num)
  nlinarith [Real.sqrt_nonneg 2]

/-- C5 (amended): every outer-pair block of `calculate_slope` implements
the amended rule — classic difference `(p-q)` with factor 2 when both ends
are valid; one-sided inline-middle difference with factor 1 when one end
and the middle are valid; one-sided `√2`-corrected difference against the
center with factor 1 when only one end is valid; nothing otherwise. -/
theorem slope_outer_pair_amended (nd p pmid q e : ℝ) :
    outerPair nd p pmid q e = specOuterPairAmended nd p pmid q e := by
  unfold outerPair specOuterPairAmended
  split_ifs <;> rw [Prod.mk.injEq] <;> exact ⟨by ring, rfl⟩

theorem outerPair_all_nodata (nd e : ℝ) : outerPair nd nd nd nd e = (0, 0) := by
  unfold outerPair
  simp

theorem middlePair_all_nodata (nd e : ℝ) : middlePair nd nd nd e = (0, 0) := by
  unfold middlePair
  simp

theorem slope_nodata_ne_zero : slope_nodata ≠ 0 := by
  unfold slope_nodata
  norm_num

/-- C6: a nodata center yields the slope-nodata sentinel (the most negative
representable 32-bit float); a valid center with all eight neighbors nodata
leaves both denominator factors at zero, both derivatives resolve to `0`,
and the output is slope `0`, not nodata. -/
theorem slope_nodata_semantics (nd x_cell y_cell a b c d e f g h i : ℝ) :
    (e = nd → calculate_slope_cell nd x_cell y_cell a b c d e f g h i = slope_nodata) ∧
    (e ≠ nd → a = nd → b = nd → c = nd → d = nd → f = nd → g = nd → h = nd → i = nd →
      calculate_slope_cell nd x_cell y_cell a b c d e f g h i = 0) := by
  constructor
  · intro he
    unfold calculate_slope_cell
    rw [if_pos he]
  · intro he ha hb hc hd hf hg hh hi
    subst ha hb hc hd hf hg hh hi
    unfold calculate_slope_cell
    rw [if_neg he]
    simp only [outerPair_all_nodata, middlePair_all_nodata]
    norm_num [slope_nodata_ne_zero]
    exact fun hcon => slope_nodata_ne_zero hcon.symm

/-- Witness for C6 at concrete cells: nodata center → sentinel; valid
center with all-nodata neighbors → slope 0. -/
theorem slope_nodata_semantics_witness :
    calculate_slope_cell (-1) 1 1 2 2 2 2 (-1) 2 2 2 2 = slope_nodata ∧
    calculate_slope_cell (-1) 1 1 (-1) (-1) (-1) (-1) 5 (-1) (-1) (-1) (-1) = 0 :=
  ⟨(slope_nodata_semantics (-1) 1 1 2 2 2 2 (-1) 2 2 2 2).1 rfl,
   (slope_nodata_semantics (-1) 1 1 (-1) (-1) (-1) (-1) 5 (-1) (-1) (-1) (-1)).2
     (by norm_num) rfl rfl rfl rfl rfl rfl rfl rfl⟩

end PygeoCore
